import Mathlib

/-!
Shallow embedding of the networking-lunches matching algorithm
(`src/lib/matchingAlgorithm.ts`, provided as `src/unnamed/part_003`).

The TypeScript source is synchronous, single-threaded and deterministic up to
two external effects: one Firestore `addDoc` per produced group (allocating the
group id) and a final batched status update.  Those effects are modelled by an
explicit oracle (`FirestoreOracle`) listing the outcome of each `addDoc` call
in order plus the outcome of the final batch commit; a thrown JavaScript
exception is modelled as `Except.error` / `Option.none`.

JavaScript semantics mirrored here:
- `Record<string, T[]>` objects with non-numeric string keys enumerate in
  insertion order (`Object.entries`), so they are embedded as association
  lists in insertion order;
- `groups[key].push(...)` on a key absent from the record dereferences
  `undefined` and throws, hence `pushBucket` returns `Option` and the
  classification pass is `Option`-valued;
- `participant.practiceAreas[0]` on an empty array is `undefined`, which as a
  record key coerces to the string key "undefined"; the area map is therefore
  keyed by `Option String` (with `none` for that degenerate key);
- `Array.prototype.sort` is stable (ES2019), embedded as a stable merge sort.
-/

namespace NetworkingLunches

/-- Participant record, mirroring the TypeScript `Participant` type.
The `submittedAt` field has type `any`, is never read by the algorithm and is
omitted; every other field is kept.  Defaults only shorten concrete inputs. -/
structure Participant where
  id : String
  name : String := ""
  email : String := ""
  barNumber : Option String := none
  practiceAreas : List String := []
  experienceLevel : String := ""
  networkingGoals : List String := []
  availability : List String := []
  locations : List String := []
  useSeparateLocations : Bool := false
  weekdayLunchLocations : Option (List String) := none
  weekdayDinnerLocations : Option (List String) := none
  weekendLunchLocations : Option (List String) := none
  weekendDinnerLocations : Option (List String) := none
  status : String := "pending"
  matchGroup : Option String := none
deriving Repr, DecidableEq

/-- Match group record, mirroring the TypeScript `MatchGroup` type. -/
structure MatchGroup where
  id : String
  participants : List Participant
  meetingTime : String
  meetingLocation : String
  isFinalized : Bool
  cycle : String
deriving Repr, DecidableEq

/-- The four canonical slot labels, in the insertion order of the `groups`
record literal in `groupByAvailability`. -/
def canonicalSlots : List String :=
  ["Weekday Lunch", "Weekday Dinner", "Weekend Lunch", "Weekend Dinner"]

/-- Association-list lookup (first entry whose key matches). -/
def lookupKey {κ α : Type} [DecidableEq κ] : List (κ × α) → κ → Option α
  | [], _ => none
  | kv :: rest, k => if kv.1 = k then some kv.2 else lookupKey rest k

/-- Slot buckets: the `Record<string, Participant[]>` of `groupByAvailability`. -/
abbrev Buckets := List (String × List Participant)

/-- The initial `groups` record of `groupByAvailability`: one empty bucket per
canonical slot. -/
def initialBuckets : Buckets := canonicalSlots.map (fun s => (s, []))

/-- `groups[k].push(p)`: appends to the bucket named `k`; `none` when `k` is
not a key of the record (JavaScript dereferences `undefined` and throws). -/
def pushBucket : Buckets → String → Participant → Option Buckets
  | [], _, _ => none
  | kv :: rest, k, p =>
    if kv.1 = k then some ((kv.1, kv.2 ++ [p]) :: rest)
    else (pushBucket rest k p).map (fun r => kv :: r)

/-- One step of the first pass of `groupByAvailability`: participants with a
non-empty availability list are pushed onto the bucket named by
`availability[0]`; the rest are skipped. -/
def primStep (bs : Buckets) (p : Participant) : Option Buckets :=
  match p.availability with
  | [] => some bs
  | a :: _ => pushBucket bs a p

/-- First pass of `groupByAvailability`. -/
def primaryPass (ps : List Participant) : Option Buckets :=
  ps.foldlM primStep initialBuckets

/-- Backfill scan of `groupByAvailability` for one sparse slot: every
participant not already in the (live) bucket by id, whose availability contains
the slot but whose first availability entry is a different slot, is appended. -/
def backfillOne (ps : List Participant) (slot : String) (bucket : List Participant) :
    List Participant :=
  ps.foldl (fun b q =>
    if (b.find? (fun r => decide (r.id = q.id))).isNone ∧
        slot ∈ q.availability ∧ q.availability.head? ≠ some slot
    then b ++ [q] else b) bucket

/-- `groupByAvailability`: primary pass, then backfill for every slot whose
bucket has fewer than 3 members after the primary pass. -/
def groupByAvailability (ps : List Participant) : Option Buckets :=
  (primaryPass ps).map (fun bs =>
    bs.map (fun kv => (kv.1, if kv.2.length < 3 then backfillOne ps kv.1 kv.2 else kv.2)))

/-- Location-preference list of a participant for a slot: the per-slot override
list (missing treated as `[]`) when `useSeparateLocations` is set — with the
`switch` falling through to the initial `[]` for a non-canonical slot — and the
shared `locations` list otherwise. -/
def resolvedLocations (p : Participant) (slot : String) : List String :=
  if p.useSeparateLocations then
    if slot = "Weekday Lunch" then p.weekdayLunchLocations.getD []
    else if slot = "Weekday Dinner" then p.weekdayDinnerLocations.getD []
    else if slot = "Weekend Lunch" then p.weekendLunchLocations.getD []
    else if slot = "Weekend Dinner" then p.weekendDinnerLocations.getD []
    else []
  else p.locations

/-- `if (!map[k]) map[k] = []; map[k].push(p)` on an insertion-ordered record:
append to an existing bucket, or add a fresh key at the end. -/
def pushAssoc {κ : Type} [DecidableEq κ] :
    List (κ × List Participant) → κ → Participant → List (κ × List Participant)
  | [], k, p => [(k, [p])]
  | kv :: rest, k, p =>
    if kv.1 = k then (kv.1, kv.2 ++ [p]) :: rest else kv :: pushAssoc rest k p

/-- `groupByLocation`: buckets a slot's participants by the first entry of
their resolved location list; participants whose resolved list is empty are
skipped. -/
def groupByLocation (ps : List Participant) (availability : String) :
    List (String × List Participant) :=
  ps.foldl (fun m p =>
    match resolvedLocations p availability with
    | [] => m
    | loc :: _ => pushAssoc m loc p) []

/-- The fixed `experienceLevels` ranking object of `createOptimalGroups`. -/
def experienceLevels : List (String × Nat) :=
  [("0-3 years", 1), ("4-7 years", 2), ("8-15 years", 3),
   ("15+ years", 4), ("Judicial Officer", 5)]

/-- Rank of an experience band.  A label outside the fixed band set yields an
`undefined` rank in JavaScript, making the sort comparator return `NaN` and
the resulting order unspecified; the embedding fixes rank 0 for such labels,
and every statement about sort order assumes labels from the band set. -/
def expRank (lvl : String) : Nat := (lookupKey experienceLevels lvl).getD 0

/-- Stable insertion of a participant into an ascending-rank-sorted list:
the participant is placed before the first element whose rank is at least its
own, hence before every equal-rank element that occurs later in the original
input. -/
def insertByRank (p : Participant) : List Participant → List Participant
  | [] => [p]
  | q :: rest =>
    if expRank p.experienceLevel ≤ expRank q.experienceLevel then p :: q :: rest
    else q :: insertByRank p rest

/-- The experience sort of `createOptimalGroups`.  `Array.prototype.sort` is
stable (ES2019) and the comparator is a difference of ranks — a total preorder
on the rank key — so the sorted result is the unique stable ascending
reordering; it is computed here by a stable insertion sort. -/
def sortByExperience : List Participant → List Participant
  | [] => []
  | p :: rest => insertByRank p (sortByExperience rest)

/-- `participant.practiceAreas[0]` (`none` models `undefined`). -/
def mainArea (p : Participant) : Option String := p.practiceAreas.head?

/-- The `practiceAreaMap` of `createOptimalGroups`, keyed by primary practice
area in insertion order. -/
def buildAreaMap (ps : List Participant) : List (Option String × List Participant) :=
  ps.foldl (fun m p => pushAssoc m (mainArea p) p) []

/-- The order in which `createOptimalGroups` walks the area map: all buckets
concatenated, keys in insertion order. -/
def areaOrder (m : List (Option String × List Participant)) : List Participant :=
  (m.map Prod.snd).flatten

/-- Scan of `findSmallestGroup` from index `i`, with current best index `b`
of size `s`; a strictly smaller group updates the best. -/
def findSmallestAux : List (List Participant) → Nat → Nat → Nat → Nat
  | [], _, b, _ => b
  | g :: rest, i, b, s =>
    if g.length < s then findSmallestAux rest (i + 1) i g.length
    else findSmallestAux rest (i + 1) b s

/-- `findSmallestGroup`: index of the first group of minimal size (the source
reads `groups[0].length` first, so the scan starts at index 1 with best 0).
The empty case is unreachable in the pipeline (the group array is non-empty
whenever a participant is assigned). -/
def findSmallestGroup (gs : List (List Participant)) : Nat :=
  match gs with
  | [] => 0
  | g :: rest => findSmallestAux rest 1 0 g.length

/-- Push a participant onto the group selected by `findSmallestGroup`. -/
def pushToSmallest (gs : List (List Participant)) (p : Participant) :
    List (List Participant) :=
  gs.set (findSmallestGroup gs) (gs.getD (findSmallestGroup gs) [] ++ [p])

/-- `const totalGroups = Math.ceil(participants.length / 4)`. -/
def totalGroupsOf (n : Nat) : Nat := (n + 3) / 4

/-- Step 4 and the practice-area distribution loop of `createOptimalGroups`:
walk the area map in insertion order and push every participant onto the
currently smallest group, starting from `ceil(N/4)` empty groups. -/
def distributeByArea (sorted : List Participant) : List (List Participant) :=
  (areaOrder (buildAreaMap sorted)).foldl pushToSmallest
    (List.replicate (totalGroupsOf sorted.length) [])

/-- The `allParticipantsAdded` id set, computed once after the area loop. -/
def addedIdsOf (gs : List (List Participant)) : List String :=
  (gs.map (fun g => g.map (fun p => p.id))).flatten

/-- The remaining-participants sweep of `createOptimalGroups`: every
participant whose id is not in the snapshot id set is pushed onto the
currently smallest group. -/
def sweepRemaining (sorted : List Participant) (afterAreas : List (List Participant)) :
    List (List Participant) :=
  sorted.foldl
    (fun (gs : List (List Participant)) (p : Participant) =>
      if p.id ∈ addedIdsOf afterAreas then gs else pushToSmallest gs p) afterAreas

/-- `createOptimalGroups`: stable sort by experience rank, partition by primary
practice area, distribute into `ceil(N/4)` groups by the smallest-group rule
(area by area), sweep for unassigned ids, and drop empty groups. -/
def createOptimalGroups (ps : List Participant) : List (List Participant) :=
  (sweepRemaining (sortByExperience ps) (distributeByArea (sortByExperience ps))).filter
    (fun g => decide (0 < g.length))

/-- One produced group before persistence: slot, location, members. -/
abbrev RawGroup := String × String × List Participant

/-- The pure grouping computation of `runMatchingAlgorithm`: classify by
availability, skip slots with fewer than 2 members, bucket by location, skip
location buckets with fewer than 2 members, build groups, and drop groups
with fewer than 2 members.  `none` models the classification crash. -/
def computeMatchGroups (ps : List Participant) : Option (List RawGroup) :=
  (groupByAvailability ps).map (fun buckets =>
    buckets.flatMap (fun sb =>
      if sb.2.length < 2 then []
      else
        (groupByLocation sb.2 sb.1).flatMap (fun lb =>
          if lb.2.length < 2 then []
          else
            ((createOptimalGroups lb.2).filter (fun g => decide (2 ≤ g.length))).map
              (fun g => (sb.1, lb.1, g)))))

/-- Outcomes of the external Firestore calls awaited by one run: the result of
each successive `addDoc` (`none` = the call throws; a missing entry also
throws) and whether the final status-update `batch.commit()` succeeds. -/
structure FirestoreOracle where
  addDocIds : List (Option String)
  batchCommitOk : Bool
deriving Repr, DecidableEq

/-- Sequentially persist the produced groups: each group consumes one `addDoc`
outcome.  Returns the durably created groups (in order), whether every write
succeeded, and the number of `addDoc` calls made (the failed call counts, and
nothing after a failure is attempted or retried). -/
def persistGroups (cycle : String) :
    List (Option String) → List RawGroup → List MatchGroup × Bool × Nat
  | _, [] => ([], true, 0)
  | [], _ :: _ => ([], false, 1)
  | none :: _, _ :: _ => ([], false, 1)
  | some docId :: ids, rg :: rest =>
    let mg : MatchGroup :=
      { id := docId, participants := rg.2.2, meetingTime := rg.1,
        meetingLocation := rg.2.1, isFinalized := false, cycle := cycle }
    let (more, ok, calls) := persistGroups cycle ids rest
    (mg :: more, ok, calls + 1)

/-- The `batch.update` operations of `updateParticipantStatuses`: one
`(participant id, group id)` status write per member per group, in order. -/
def statusUpdateOps (mgs : List MatchGroup) : List (String × String) :=
  mgs.flatMap (fun g => g.participants.map (fun p => (p.id, g.id)))

/-- Observable outcome of one run: the value returned to the caller (or the
error it throws), the groups durably created in the store, the number of
`addDoc` calls made, and whether the status batch was committed. -/
structure RunOutcome where
  result : Except String (List MatchGroup)
  createdGroups : List MatchGroup
  addDocCalls : Nat
  statusBatchCommitted : Bool
deriving Repr

/-- `runMatchingAlgorithm`: the pure grouping computation plus the persistence
effects.  Any thrown error (classification crash, a failed `addDoc`, or a
failed batch commit) is caught and re-thrown as the generic
`Failed to run matching algorithm` error; groups already created stay in the
store. -/
def runMatchingAlgorithm (oracle : FirestoreOracle) (ps : List Participant)
    (cycle : String) : RunOutcome :=
  match computeMatchGroups ps with
  | none =>
    { result := Except.error "Failed to run matching algorithm",
      createdGroups := [], addDocCalls := 0, statusBatchCommitted := false }
  | some raw =>
    let pr := persistGroups cycle oracle.addDocIds raw
    if pr.2.1 then
      if oracle.batchCommitOk then
        { result := Except.ok pr.1, createdGroups := pr.1,
          addDocCalls := pr.2.2, statusBatchCommitted := true }
      else
        { result := Except.error "Failed to run matching algorithm",
          createdGroups := pr.1, addDocCalls := pr.2.2,
          statusBatchCommitted := false }
    else
      { result := Except.error "Failed to run matching algorithm",
        createdGroups := pr.1, addDocCalls := pr.2.2,
        statusBatchCommitted := false }

/-- Elements of a list at positions congruent to `i` modulo `G`, starting the
position count at `j`.  The smallest-group rule starting from `G` empty groups
assigns the `m`-th participant to group `m % G`, so group `i` ends up exactly
with `sieve G i 0` of the assignment order. -/
def sieve {α : Type} (G i : Nat) : Nat → List α → List α
  | _, [] => []
  | j, x :: xs => if j % G = i then x :: sieve G i (j + 1) xs else sieve G i (j + 1) xs

/-- Generic step of an insertion-ordered record build: insert the participant
under its (optional) key, skipping participants without a key.  Both
`groupByLocation` and the practice-area map are folds of this step. -/
def pushAssocStep {κ : Type} [DecidableEq κ] (optKey : Participant → Option κ)
    (m : List (κ × List Participant)) (p : Participant) : List (κ × List Participant) :=
  match optKey p with
  | none => m
  | some k => pushAssoc m k p

/-- The pure part of the backfill condition: the slot occurs in the
availability list but is not its first entry. -/
def backfillEligible (slot : String) (q : Participant) : Bool :=
  decide (slot ∈ q.availability ∧ q.availability.head? ≠ some slot)

/-- The order in which `createOptimalGroups` assigns participants to groups:
the area map of the experience-sorted input, flattened bucket by bucket. -/
def assignedOrder (ps : List Participant) : List Participant :=
  areaOrder (buildAreaMap (sortByExperience ps))

/-- Concrete participants and oracles used to witness the theorems below on
closed inputs. -/
def sampleA : Participant :=
  { id := "a", practiceAreas := ["corp"], experienceLevel := "0-3 years",
    availability := ["Weekday Lunch"], locations := ["Tustin"] }

def sampleB : Participant :=
  { id := "b", practiceAreas := ["lit"], experienceLevel := "4-7 years",
    availability := ["Weekday Lunch"], locations := ["Tustin"] }

def sampleC : Participant :=
  { id := "c", practiceAreas := ["corp"], experienceLevel := "8-15 years",
    availability := ["Weekday Lunch"], locations := ["Tustin"] }

def sampleD : Participant :=
  { id := "d", practiceAreas := ["lit"], experienceLevel := "15+ years",
    availability := ["Weekday Lunch"], locations := ["Tustin"] }

def sampleE : Participant :=
  { id := "e", practiceAreas := ["fam"], experienceLevel := "0-3 years",
    availability := ["Weekday Lunch"], locations := ["Tustin"] }

def sampleSecondary : Participant :=
  { id := "z", practiceAreas := ["fam"], experienceLevel := "8-15 years",
    availability := ["Weekday Lunch", "Weekend Dinner"], locations := ["Tustin"] }

def sampleNoLocation : Participant :=
  { id := "n", practiceAreas := ["corp"], experienceLevel := "0-3 years",
    availability := ["Weekday Lunch"], locations := [] }

def badAvailability : Participant :=
  { id := "w", practiceAreas := ["corp"], experienceLevel := "0-3 years",
    availability := ["Someday"], locations := ["Tustin"] }

def okOracle : FirestoreOracle :=
  { addDocIds := [some "g1", some "g2", some "g3", some "g4"], batchCommitOk := true }

def failOracle : FirestoreOracle := { addDocIds := [none], batchCommitOk := true }

def wFive : List Participant := [sampleA, sampleB, sampleC, sampleD, sampleE]

def wThree : List Participant := [sampleA, sampleB, sampleSecondary]

def wMG : MatchGroup :=
  ⟨"g1", [sampleA, sampleB], "Weekday Lunch", "Tustin", false, "March 2025"⟩

def wGroups : List MatchGroup := [wMG]

def wRG : RawGroup := ("Weekday Lunch", "Tustin", [sampleA, sampleB])

def wRaw : List RawGroup := [wRG]

def wG1 : List Participant := [sampleA, sampleE, sampleD]

def wBuckets1 : Buckets :=
  [("Weekday Lunch", [sampleA]), ("Weekday Dinner", []),
   ("Weekend Lunch", []), ("Weekend Dinner", [])]

def wBuckets3 : Buckets :=
  [("Weekday Lunch", [sampleA, sampleB, sampleSecondary]), ("Weekday Dinner", []),
   ("Weekend Lunch", []), ("Weekend Dinner", [sampleSecondary])]

/-! ### Association-list lemmas -/

theorem lookupKey_eq_none_iff {κ α : Type} [DecidableEq κ] (m : List (κ × α)) (k : κ) :
    lookupKey m k = none ↔ k ∉ m.map Prod.fst := by
  induction m with
  | nil => simp [lookupKey]
  | cons kv rest ih =>
    by_cases h : kv.1 = k
    · simp [lookupKey, h]
    · simp only [lookupKey, if_neg h, List.map_cons, List.mem_cons, ih]
      constructor
      · rintro hn (he | hm)
        · exact h he.symm
        · exact hn hm
      · intro hn hm
        exact hn (Or.inr hm)

theorem lookupKey_mem {κ α : Type} [DecidableEq κ] :
    ∀ (m : List (κ × α)) (k : κ) (v : α), lookupKey m k = some v → (k, v) ∈ m := by
  intro m
  induction m with
  | nil => intro k v h; simp [lookupKey] at h
  | cons kv rest ih =>
    intro k v h
    by_cases hk : kv.1 = k
    · simp only [lookupKey, if_pos hk, Option.some.injEq] at h
      have he : (k, v) = kv := by
        obtain ⟨k0, v0⟩ := kv
        simp only at hk h
        rw [← hk, ← h]
      rw [he]
      exact List.mem_cons_self _ _
    · simp only [lookupKey, if_neg hk] at h
      exact List.mem_cons_of_mem _ (ih k v h)

theorem lookupKey_of_mem_nodupKeys {κ α : Type} [DecidableEq κ] :
    ∀ (m : List (κ × α)), (m.map Prod.fst).Nodup → ∀ kv ∈ m, lookupKey m kv.1 = some kv.2 := by
  intro m
  induction m with
  | nil => intro _ kv h; simp at h
  | cons kv0 rest ih =>
    intro hnd kv hm
    simp only [List.map_cons, List.nodup_cons] at hnd
    rcases List.mem_cons.mp hm with hm2 | hm2
    · subst hm2
      simp [lookupKey]
    · have hne : kv0.1 ≠ kv.1 := by
        intro he
        exact hnd.1 (he ▸ List.mem_map_of_mem Prod.fst hm2)
      simp only [lookupKey, if_neg hne]
      exact ih hnd.2 kv hm2

/-! ### `pushBucket` and the primary pass -/

theorem pushBucket_isSome_iff (k : String) (p : Participant) :
    ∀ (m : Buckets), (pushBucket m k p).isSome ↔ k ∈ m.map Prod.fst := by
  intro m
  induction m with
  | nil => simp [pushBucket]
  | cons kv rest ih =>
    by_cases h : kv.1 = k
    · simp [pushBucket, h]
    · simp only [pushBucket, if_neg h, List.map_cons, List.mem_cons]
      constructor
      · intro hs
        cases hpb : pushBucket rest k p with
        | none => rw [hpb] at hs; simp at hs
        | some r =>
          refine Or.inr (ih.mp ?_)
          rw [hpb]
          rfl
      · rintro (he | hm)
        · exact absurd he.symm h
        · have hs := ih.mpr hm
          cases hpb : pushBucket rest k p with
          | none => rw [hpb] at hs; simp at hs
          | some r => rfl

theorem pushBucket_keys (k : String) (p : Participant) :
    ∀ (m m2 : Buckets), pushBucket m k p = some m2 → m2.map Prod.fst = m.map Prod.fst := by
  intro m
  induction m with
  | nil => intro m2 h; simp [pushBucket] at h
  | cons kv rest ih =>
    intro m2 h
    by_cases hk : kv.1 = k
    · simp only [pushBucket, if_pos hk, Option.some.injEq] at h
      subst h
      simp
    · simp only [pushBucket, if_neg hk, Option.map_eq_some'] at h
      obtain ⟨r2, hr2, he⟩ := h
      subst he
      simp [ih r2 hr2]

theorem pushBucket_lookup (k : String) (p : Participant) :
    ∀ (m m2 : Buckets), pushBucket m k p = some m2 → ∀ s,
      lookupKey m2 s =
        if k = s then (lookupKey m s).map (fun v => v ++ [p]) else lookupKey m s := by
  intro m
  induction m with
  | nil => intro m2 h; simp [pushBucket] at h
  | cons kv rest ih =>
    intro m2 h s
    by_cases hk : kv.1 = k
    · simp only [pushBucket, if_pos hk, Option.some.injEq] at h
      subst h
      by_cases hs : k = s
      · simp [lookupKey, hk, hs]
      · have : kv.1 ≠ s := by rw [hk]; exact hs
        simp [lookupKey, this, hs]
    · simp only [pushBucket, if_neg hk, Option.map_eq_some'] at h
      obtain ⟨r2, hr2, he⟩ := h
      subst he
      by_cases hs : kv.1 = s
      · have : k ≠ s := by rw [← hs]; exact fun he2 => hk he2.symm
        simp [lookupKey, hs, this]
      · simp only [lookupKey, if_neg hs]
        exact ih r2 hr2 s

theorem foldlM_primStep_char (s : String) :
    ∀ (ps : List Participant) (m bs : Buckets),
    ps.foldlM primStep m = some bs →
    bs.map Prod.fst = m.map Prod.fst ∧
    ∀ B, lookupKey m s = some B →
      lookupKey bs s =
        some (B ++ ps.filter (fun p => decide (p.availability.head? = some s))) := by
  intro ps
  induction ps with
  | nil =>
    intro m bs h
    simp only [List.foldlM_nil, pure, Option.some.injEq] at h
    subst h
    exact ⟨rfl, fun B hB => by simpa using hB⟩
  | cons p ps ih =>
    intro m bs h
    rw [List.foldlM_cons] at h
    obtain ⟨m2, h1, h2⟩ : ∃ m2, primStep m p = some m2 ∧ ps.foldlM primStep m2 = some bs := by
      cases hstep : primStep m p with
      | none => rw [hstep] at h; exact absurd h (by simp)
      | some m2 =>
        rw [hstep] at h
        exact ⟨m2, rfl, h⟩
    rcases hav : p.availability with _ | ⟨a, rest⟩
    · have hm2 : m2 = m := by
        simp only [primStep, hav, Option.some.injEq] at h1
        exact h1.symm
      rw [hm2] at h2
      obtain ⟨hkeys, hlook⟩ := ih m bs h2
      refine ⟨hkeys, fun B hB => ?_⟩
      rw [List.filter_cons_of_neg (by simp [hav])]
      exact hlook B hB
    · have h1' : pushBucket m a p = some m2 := by
        simpa only [primStep, hav] using h1
      obtain ⟨hkeys, hlook⟩ := ih m2 bs h2
      have hkeys2 := pushBucket_keys a p m m2 h1'
      refine ⟨hkeys.trans hkeys2, fun B hB => ?_⟩
      have hl := pushBucket_lookup a p m m2 h1' s
      by_cases has : a = s
      · rw [if_pos has, hB] at hl
        have := hlook (B ++ [p]) hl
        rw [this]
        rw [List.filter_cons_of_pos (by simp [hav, has])]
        simp
      · rw [if_neg has, hB] at hl
        have := hlook B hl
        rw [this]
        rw [List.filter_cons_of_neg (by simp [hav, has])]

theorem initialBuckets_keys : initialBuckets.map Prod.fst = canonicalSlots := rfl

theorem lookupKey_initialBuckets (s : String) (hs : s ∈ canonicalSlots) :
    lookupKey initialBuckets s = some [] := by
  simp only [canonicalSlots, List.mem_cons, List.not_mem_nil, or_false] at hs
  rcases hs with h | h | h | h <;> subst h <;> rfl

theorem primaryPass_char (ps : List Participant) (bs : Buckets)
    (h : primaryPass ps = some bs) :
    bs.map Prod.fst = canonicalSlots ∧
    ∀ s ∈ canonicalSlots,
      lookupKey bs s =
        some (ps.filter (fun p => decide (p.availability.head? = some s))) := by
  constructor
  · exact ((foldlM_primStep_char "" ps initialBuckets bs h).1).trans initialBuckets_keys
  · intro s hs
    have := (foldlM_primStep_char s ps initialBuckets bs h).2 [] (lookupKey_initialBuckets s hs)
    simpa using this

theorem foldlM_primStep_total :
    ∀ (ps : List Participant) (m : Buckets),
    (∀ p ∈ ps, ∀ a, p.availability.head? = some a → a ∈ m.map Prod.fst) →
    (ps.foldlM primStep m).isSome := by
  intro ps
  induction ps with
  | nil => intro m _; simp [pure]
  | cons p ps ih =>
    intro m hc
    rw [List.foldlM_cons]
    rcases hav : p.availability with _ | ⟨a, rest⟩
    · have hstep : primStep m p = some m := by simp [primStep, hav]
      rw [hstep]
      exact ih m (fun q hq => hc q (List.mem_cons_of_mem _ hq))
    · have ha : a ∈ m.map Prod.fst :=
        hc p (List.mem_cons_self _ _) a (by rw [hav]; rfl)
      have hsome : (pushBucket m a p).isSome := (pushBucket_isSome_iff a p m).mpr ha
      obtain ⟨m2, hm2⟩ := Option.isSome_iff_exists.mp hsome
      have hstep : primStep m p = some m2 := by
        simpa only [primStep, hav] using hm2
      rw [hstep]
      have hkeys := pushBucket_keys a p m m2 hm2
      exact ih m2 (fun q hq b hb => hkeys ▸ hc q (List.mem_cons_of_mem _ hq) b hb)

theorem foldlM_primStep_fails :
    ∀ (ps : List Participant) (m : Buckets) (p : Participant) (a : String),
    p ∈ ps → p.availability.head? = some a → a ∉ m.map Prod.fst →
    ps.foldlM primStep m = none := by
  intro ps
  induction ps with
  | nil => intro m p a hp _ _; simp at hp
  | cons q ps ih =>
    intro m p a hp ha hna
    rw [List.foldlM_cons]
    cases hstep : primStep m q with
    | none => rfl
    | some m2 =>
      have hkeys : m2.map Prod.fst = m.map Prod.fst := by
        rcases hav : q.availability with _ | ⟨b, rest⟩
        · simp only [primStep, hav, Option.some.injEq] at hstep
          rw [hstep]
        · have : pushBucket m b q = some m2 := by simpa only [primStep, hav] using hstep
          exact pushBucket_keys b q m m2 this
      rcases List.mem_cons.mp hp with he | hm
      · subst he
        rcases hav : p.availability with _ | ⟨b, rest⟩
        · rw [hav] at ha; simp at ha
        · rw [hav] at ha
          have hb : b = a := by simpa using ha
          subst hb
          have : pushBucket m b p = some m2 := by simpa only [primStep, hav] using hstep
          have hsome : (pushBucket m b p).isSome := by rw [this]; rfl
          exact absurd ((pushBucket_isSome_iff b p m).mp hsome) hna
      · exact ih m2 p a hm ha (fun hmem => hna (hkeys ▸ hmem))

/-! ### Backfill pass -/

theorem backfillOne_extends (ps : List Participant) (slot : String) :
    ∀ (B : List Participant), ∃ A, backfillOne ps slot B = B ++ A ∧
      (∀ x ∈ A, (slot ∈ x.availability ∧ x.availability.head? ≠ some slot) ∧ x ∈ ps) ∧
      List.Sublist A ps := by
  unfold backfillOne
  induction ps with
  | nil => intro B; exact ⟨[], by simp, by simp, List.Sublist.refl _⟩
  | cons q ps ih =>
    intro B
    rw [List.foldl_cons]
    by_cases hc : ((B.find? (fun r => decide (r.id = q.id))).isNone ∧
        slot ∈ q.availability ∧ q.availability.head? ≠ some slot)
    · rw [if_pos hc]
      obtain ⟨A, hA, hAprop, hAsub⟩ := ih (B ++ [q])
      refine ⟨q :: A, by rw [hA, List.append_assoc]; rfl, ?_, List.Sublist.cons₂ q hAsub⟩
      intro x hx
      rcases List.mem_cons.mp hx with he | hm
      · subst he
        exact ⟨hc.2, List.mem_cons_self _ _⟩
      · exact ⟨(hAprop x hm).1, List.mem_cons_of_mem _ (hAprop x hm).2⟩
    · rw [if_neg hc]
      obtain ⟨A, hA, hAprop, hAsub⟩ := ih B
      exact ⟨A, hA,
        fun x hx => ⟨(hAprop x hx).1, List.mem_cons_of_mem _ (hAprop x hx).2⟩,
        List.Sublist.cons q hAsub⟩

theorem backfillOne_eq (slot : String) :
    ∀ (rest : List Participant) (acc : List Participant),
    (rest.map (fun p => p.id)).Nodup →
    (∀ x ∈ rest, backfillEligible slot x = true → ∀ q ∈ acc, q.id ≠ x.id) →
    rest.foldl (fun b q =>
      if (b.find? (fun r => decide (r.id = q.id))).isNone ∧
          slot ∈ q.availability ∧ q.availability.head? ≠ some slot
      then b ++ [q] else b) acc = acc ++ rest.filter (backfillEligible slot) := by
  intro rest
  induction rest with
  | nil => intro acc _ _; simp
  | cons x rest ih =>
    intro acc hnd hblock
    simp only [List.map_cons, List.nodup_cons] at hnd
    rw [List.foldl_cons]
    by_cases hel : backfillEligible slot x = true
    · have hfind : (acc.find? (fun r => decide (r.id = x.id))).isNone := by
        rw [Option.isNone_iff_eq_none, List.find?_eq_none]
        intro q hq
        simp only [decide_eq_true_eq]
        exact hblock x (List.mem_cons_self _ _) hel q hq
      have help : slot ∈ x.availability ∧ x.availability.head? ≠ some slot := by
        simpa [backfillEligible] using hel
      rw [if_pos ⟨hfind, help⟩]
      rw [List.filter_cons_of_pos hel]
      have := ih (acc ++ [x]) hnd.2 ?_
      · rw [this, List.append_assoc]
        rfl
      · intro y hy hely q hq
        rcases List.mem_append.mp hq with hq2 | hq2
        · exact hblock y (List.mem_cons_of_mem _ hy) hely q hq2
        · have hqx : q = x := by simpa using hq2
          subst hqx
          intro he
          exact hnd.1 (he ▸ List.mem_map_of_mem (fun p => p.id) hy)
    · have help : ¬ (slot ∈ x.availability ∧ x.availability.head? ≠ some slot) := by
        intro hcontra
        exact hel (by simpa [backfillEligible] using hcontra)
      rw [if_neg (fun hcontra => help hcontra.2)]
      rw [List.filter_cons_of_neg (by simpa using hel)]
      exact ih acc hnd.2 (fun y hy => hblock y (List.mem_cons_of_mem _ hy))

theorem backfillOne_char (ps : List Participant) (slot : String) (B : List Participant)
    (hid : (ps.map (fun p => p.id)).Nodup)
    (hBps : ∀ q ∈ B, q ∈ ps)
    (hBhead : ∀ q ∈ B, q.availability.head? = some slot) :
    backfillOne ps slot B = B ++ ps.filter (backfillEligible slot) := by
  unfold backfillOne
  apply backfillOne_eq slot ps B hid
  intro x hx helx q hq heq
  have hqps := hBps q hq
  have hqx : q = x := List.inj_on_of_nodup_map hid hqps hx heq
  subst hqx
  have h1 := hBhead q hq
  have h2 : slot ∈ q.availability ∧ q.availability.head? ≠ some slot := by
    simpa [backfillEligible] using helx
  exact h2.2 h1

/-! ### `groupByAvailability` -/

theorem mapValues_keys (f : String → List Participant → List Participant) (m : Buckets) :
    (m.map (fun kv => (kv.1, f kv.1 kv.2))).map Prod.fst = m.map Prod.fst := by
  induction m with
  | nil => rfl
  | cons kv rest ih => simp only [List.map_cons, ih]

theorem lookupKey_mapValues (f : String → List Participant → List Participant) :
    ∀ (m : Buckets) (k : String),
    lookupKey (m.map (fun kv => (kv.1, f kv.1 kv.2))) k = (lookupKey m k).map (f k) := by
  intro m
  induction m with
  | nil => intro k; rfl
  | cons kv rest ih =>
    intro k
    by_cases h : kv.1 = k
    · subst h
      simp [lookupKey]
    · simp [lookupKey, h, ih]

theorem groupByAvailability_eq (ps : List Participant) (bs2 : Buckets)
    (h : groupByAvailability ps = some bs2) :
    ∃ bs, primaryPass ps = some bs ∧
      bs2 = bs.map (fun kv =>
        (kv.1, if kv.2.length < 3 then backfillOne ps kv.1 kv.2 else kv.2)) := by
  unfold groupByAvailability at h
  cases hp : primaryPass ps with
  | none => rw [hp] at h; simp at h
  | some bs =>
    rw [hp] at h
    exact ⟨bs, rfl, (Option.some.inj h).symm⟩

theorem groupByAvailability_keys (ps : List Participant) (bs2 : Buckets)
    (h : groupByAvailability ps = some bs2) : bs2.map Prod.fst = canonicalSlots := by
  obtain ⟨bs, hp, he⟩ := groupByAvailability_eq ps bs2 h
  rw [he, mapValues_keys (fun s b => if b.length < 3 then backfillOne ps s b else b) bs]
  exact (primaryPass_char ps bs hp).1

theorem groupByAvailability_lookup (ps : List Participant) (bs2 : Buckets)
    (h : groupByAvailability ps = some bs2) (s : String) (hs : s ∈ canonicalSlots) :
    lookupKey bs2 s =
      some (if (ps.filter (fun p => decide (p.availability.head? = some s))).length < 3
        then backfillOne ps s (ps.filter (fun p => decide (p.availability.head? = some s)))
        else ps.filter (fun p => decide (p.availability.head? = some s))) := by
  obtain ⟨bs, hp, he⟩ := groupByAvailability_eq ps bs2 h
  rw [he, lookupKey_mapValues (fun s b => if b.length < 3 then backfillOne ps s b else b) bs s]
  rw [(primaryPass_char ps bs hp).2 s hs]
  rfl

theorem mem_bucket_lookup (ps : List Participant) (bs2 : Buckets)
    (h : groupByAvailability ps = some bs2) (kv : String × List Participant) (hkv : kv ∈ bs2) :
    kv.1 ∈ canonicalSlots ∧ lookupKey bs2 kv.1 = some kv.2 := by
  have hkeys := groupByAvailability_keys ps bs2 h
  have hnd : (bs2.map Prod.fst).Nodup := by
    rw [hkeys]
    decide
  refine ⟨?_, lookupKey_of_mem_nodupKeys bs2 hnd kv hkv⟩
  rw [← hkeys]
  exact List.mem_map_of_mem Prod.fst hkv

theorem slotBucket_shape (ps : List Participant) (bs2 : Buckets)
    (h : groupByAvailability ps = some bs2) (kv : String × List Participant) (hkv : kv ∈ bs2) :
    ∃ A, kv.2 = ps.filter (fun p => decide (p.availability.head? = some kv.1)) ++ A ∧
      (∀ x ∈ A, (kv.1 ∈ x.availability ∧ x.availability.head? ≠ some kv.1) ∧ x ∈ ps) ∧
      List.Sublist A ps := by
  obtain ⟨hmem, hlook⟩ := mem_bucket_lookup ps bs2 h kv hkv
  rw [groupByAvailability_lookup ps bs2 h kv.1 hmem] at hlook
  have hv := Option.some.inj hlook
  by_cases hlen : (ps.filter (fun p => decide (p.availability.head? = some kv.1))).length < 3
  · rw [if_pos hlen] at hv
    obtain ⟨A, hA, hAprop, hAsub⟩ := backfillOne_extends ps kv.1
      (ps.filter (fun p => decide (p.availability.head? = some kv.1)))
    rw [hA] at hv
    exact ⟨A, hv.symm, hAprop, hAsub⟩
  · rw [if_neg hlen] at hv
    exact ⟨[], by rw [List.append_nil]; exact hv.symm, by simp, List.nil_sublist _⟩

theorem slotBucket_mem_availability (ps : List Participant) (bs2 : Buckets)
    (h : groupByAvailability ps = some bs2) (kv : String × List Participant) (hkv : kv ∈ bs2)
    (q : Participant) (hq : q ∈ kv.2) : kv.1 ∈ q.availability ∧ q ∈ ps := by
  obtain ⟨A, hA, hAprop, _⟩ := slotBucket_shape ps bs2 h kv hkv
  rw [hA] at hq
  rcases List.mem_append.mp hq with hq2 | hq2
  · have hcond := List.of_mem_filter hq2
    simp only [decide_eq_true_eq] at hcond
    exact ⟨List.mem_of_mem_head? hcond, List.mem_of_mem_filter hq2⟩
  · exact ⟨(hAprop q hq2).1.1, (hAprop q hq2).2⟩

theorem slotBucket_idNodup (ps : List Participant) (bs2 : Buckets)
    (hid : (ps.map (fun p => p.id)).Nodup)
    (h : groupByAvailability ps = some bs2) (kv : String × List Participant) (hkv : kv ∈ bs2) :
    (kv.2.map (fun p => p.id)).Nodup := by
  obtain ⟨hmem, hlook⟩ := mem_bucket_lookup ps bs2 h kv hkv
  rw [groupByAvailability_lookup ps bs2 h kv.1 hmem] at hlook
  have hv := Option.some.inj hlook
  have hBnd : ((ps.filter (fun p => decide (p.availability.head? = some kv.1))).map
      (fun p => p.id)).Nodup :=
    hid.sublist ((List.filter_sublist ps).map (fun p => p.id))
  by_cases hlen : (ps.filter (fun p => decide (p.availability.head? = some kv.1))).length < 3
  · rw [if_pos hlen] at hv
    rw [backfillOne_char ps kv.1 _ hid
      (fun q hq => List.mem_of_mem_filter hq)
      (fun q hq => by simpa using List.of_mem_filter hq)] at hv
    rw [← hv]
    rw [List.map_append]
    rw [List.nodup_append]
    refine ⟨hBnd, hid.sublist ((List.filter_sublist ps).map (fun p => p.id)), ?_⟩
    intro a ha1 ha2
    obtain ⟨x, hx, hxa⟩ := List.mem_map.mp ha1
    obtain ⟨y, hy, hya⟩ := List.mem_map.mp ha2
    have hxy : x = y := List.inj_on_of_nodup_map hid
      (List.mem_of_mem_filter hx) (List.mem_of_mem_filter hy) (by rw [hxa, hya])
    subst hxy
    have h1 : x.availability.head? = some kv.1 := by simpa using List.of_mem_filter hx
    have h2 : x.availability.head? ≠ some kv.1 := by
      have := List.of_mem_filter hy
      simp only [backfillEligible, decide_eq_true_eq] at this
      exact this.2
    exact h2 h1
  · rw [if_neg hlen] at hv
    rw [← hv]
    exact hBnd

/-! ### `pushAssoc` maps: `groupByLocation` and the practice-area map -/

theorem pushAssoc_keys {κ : Type} [DecidableEq κ] (k : κ) (p : Participant) :
    ∀ (m : List (κ × List Participant)),
    (pushAssoc m k p).map Prod.fst =
      if k ∈ m.map Prod.fst then m.map Prod.fst else m.map Prod.fst ++ [k] := by
  intro m
  induction m with
  | nil => simp [pushAssoc]
  | cons kv rest ih =>
    by_cases h : kv.1 = k
    · have : k ∈ (kv :: rest).map Prod.fst := by
        rw [List.map_cons, h]
        exact List.mem_cons_self _ _
      simp [pushAssoc, h, this]
    · have hne : ¬ k = kv.1 := fun he => h he.symm
      simp only [pushAssoc, if_neg h, List.map_cons, ih]
      by_cases hk : k ∈ rest.map Prod.fst
      · rw [if_pos hk, if_pos (List.mem_cons_of_mem _ hk)]
      · rw [if_neg hk, if_neg (by
          rw [List.mem_cons]
          rintro (he | hm)
          · exact hne he
          · exact hk hm)]
        rfl

theorem pushAssoc_keys_sub {κ : Type} [DecidableEq κ] (k : κ) (p : Participant)
    (m : List (κ × List Participant)) :
    (∀ a ∈ m.map Prod.fst, a ∈ (pushAssoc m k p).map Prod.fst) ∧
    k ∈ (pushAssoc m k p).map Prod.fst := by
  rw [pushAssoc_keys]
  by_cases hk : k ∈ m.map Prod.fst
  · rw [if_pos hk]
    exact ⟨fun a ha => ha, hk⟩
  · rw [if_neg hk]
    exact ⟨fun a ha => List.mem_append.mpr (Or.inl ha),
      List.mem_append.mpr (Or.inr (List.mem_cons_self _ _))⟩

theorem pushAssoc_mem {κ : Type} [DecidableEq κ] (k : κ) (p : Participant) :
    ∀ (m : List (κ × List Participant)), (m.map Prod.fst).Nodup →
    ∀ kv2 ∈ pushAssoc m k p,
      (kv2 ∈ m ∧ kv2.1 ≠ k) ∨ (kv2.1 = k ∧ kv2.2 = (lookupKey m k).getD [] ++ [p]) := by
  intro m
  induction m with
  | nil =>
    intro _ kv2 h
    simp only [pushAssoc] at h
    have : kv2 = (k, [p]) := by simpa using h
    subst this
    exact Or.inr ⟨rfl, by simp [lookupKey]⟩
  | cons kv rest ih =>
    intro hnd kv2 h
    simp only [List.map_cons, List.nodup_cons] at hnd
    by_cases hk : kv.1 = k
    · simp only [pushAssoc, if_pos hk] at h
      rcases List.mem_cons.mp h with he | hm
      · subst he
        refine Or.inr ⟨hk, ?_⟩
        simp [lookupKey, hk]
      · refine Or.inl ⟨List.mem_cons_of_mem _ hm, ?_⟩
        intro he
        rw [← hk] at he
        exact hnd.1 (he ▸ List.mem_map_of_mem Prod.fst hm)
    · simp only [pushAssoc, if_neg hk] at h
      rcases List.mem_cons.mp h with he | hm
      · subst he
        exact Or.inl ⟨List.mem_cons_self _ _, fun he => hk he⟩
      · rcases ih hnd.2 kv2 hm with ⟨h1, h2⟩ | ⟨h1, h2⟩
        · exact Or.inl ⟨List.mem_cons_of_mem _ h1, h2⟩
        · refine Or.inr ⟨h1, ?_⟩
          rw [h2]
          simp [lookupKey, hk]

theorem foldPushAssoc_char {κ : Type} [DecidableEq κ] (optKey : Participant → Option κ) :
    ∀ (ps processed : List Participant) (m : List (κ × List Participant)),
    (m.map Prod.fst).Nodup →
    (∀ kv ∈ m, kv.2 = processed.filter (fun p => decide (optKey p = some kv.1))) →
    (∀ k, k ∉ m.map Prod.fst →
      processed.filter (fun p => decide (optKey p = some k)) = []) →
    (((ps.foldl (pushAssocStep optKey) m).map Prod.fst).Nodup) ∧
    (∀ kv ∈ ps.foldl (pushAssocStep optKey) m,
      kv.2 = (processed ++ ps).filter (fun p => decide (optKey p = some kv.1))) ∧
    (∀ k, k ∉ (ps.foldl (pushAssocStep optKey) m).map Prod.fst →
      (processed ++ ps).filter (fun p => decide (optKey p = some k)) = []) := by
  intro ps
  induction ps with
  | nil =>
    intro processed m h1 h2 h3
    rw [List.foldl_nil, List.append_nil]
    exact ⟨h1, h2, h3⟩
  | cons p ps ih =>
    intro processed m h1 h2 h3
    rw [List.foldl_cons]
    cases hop : optKey p with
    | none =>
      have hstep : pushAssocStep optKey m p = m := by
        unfold pushAssocStep
        rw [hop]
      rw [hstep]
      have h2' : ∀ kv ∈ m, kv.2 =
          (processed ++ [p]).filter (fun q => decide (optKey q = some kv.1)) := by
        intro kv hkv
        rw [List.filter_append, h2 kv hkv]
        simp [hop]
      have h3' : ∀ k, k ∉ m.map Prod.fst →
          (processed ++ [p]).filter (fun q => decide (optKey q = some k)) = [] := by
        intro k hk
        rw [List.filter_append, h3 k hk]
        simp [hop]
      have hres := ih (processed ++ [p]) m h1 h2' h3'
      rw [List.append_assoc] at hres
      exact hres
    | some k =>
      have hstep : pushAssocStep optKey m p = pushAssoc m k p := by
        unfold pushAssocStep
        rw [hop]
      rw [hstep]
      have hkeysub := pushAssoc_keys_sub k p m
      have h1' : ((pushAssoc m k p).map Prod.fst).Nodup := by
        rw [pushAssoc_keys]
        by_cases hk : k ∈ m.map Prod.fst
        · rwa [if_pos hk]
        · rw [if_neg hk]
          rw [List.nodup_append]
          exact ⟨h1, List.nodup_singleton _, by
            intro a ha hak
            have : a = k := by simpa using hak
            exact hk (this ▸ ha)⟩
      have h2' : ∀ kv ∈ pushAssoc m k p, kv.2 =
          (processed ++ [p]).filter (fun q => decide (optKey q = some kv.1)) := by
        intro kv hkv
        rcases pushAssoc_mem k p m h1 kv hkv with ⟨hm, hne⟩ | ⟨hkk, hval⟩
        · rw [List.filter_append, h2 kv hm]
          have : decide (optKey p = some kv.1) = false := by
            simp only [hop, decide_eq_false_iff_not]
            intro he
            exact hne (Option.some.inj he).symm
          simp [this]
        · rw [List.filter_append, hval]
          have hp : decide (optKey p = some kv.1) = true := by
            simp [hop, hkk]
          have hfp : [p].filter (fun q => decide (optKey q = some kv.1)) = [p] := by
            simp [hp]
          rw [hfp]
          congr 1
          cases hlk : lookupKey m k with
          | none =>
            have hknot : k ∉ m.map Prod.fst := (lookupKey_eq_none_iff m k).mp hlk
            rw [hkk]
            rw [h3 k hknot]
            rfl
          | some v =>
            have hmem := lookupKey_mem m k v hlk
            have := h2 (k, v) hmem
            rw [hkk]
            simpa using this
      have h3' : ∀ k2, k2 ∉ (pushAssoc m k p).map Prod.fst →
          (processed ++ [p]).filter (fun q => decide (optKey q = some k2)) = [] := by
        intro k2 hk2
        have hk2m : k2 ∉ m.map Prod.fst := fun hm => hk2 (hkeysub.1 k2 hm)
        have hk2k : k2 ≠ k := fun he => hk2 (he ▸ hkeysub.2)
        rw [List.filter_append, h3 k2 hk2m]
        have : decide (optKey p = some k2) = false := by
          simp only [hop, decide_eq_false_iff_not]
          intro he
          exact hk2k (Option.some.inj he).symm
        simp [this]
      have hres := ih (processed ++ [p]) (pushAssoc m k p) h1' h2' h3'
      rw [List.append_assoc] at hres
      exact hres

theorem groupByLocation_eq_fold (ps : List Participant) (slot : String) :
    groupByLocation ps slot =
      ps.foldl (pushAssocStep (fun p => (resolvedLocations p slot).head?)) [] := by
  unfold groupByLocation
  have : (fun (m : List (String × List Participant)) (p : Participant) =>
      match resolvedLocations p slot with
      | [] => m
      | loc :: _ => pushAssoc m loc p) =
    pushAssocStep (fun p => (resolvedLocations p slot).head?) := by
    funext m p
    cases h : resolvedLocations p slot with
    | nil => simp [pushAssocStep, h]
    | cons loc rest => simp [pushAssocStep, h]
  rw [this]

theorem groupByLocation_char (ps : List Participant) (slot : String) :
    (((groupByLocation ps slot).map Prod.fst).Nodup) ∧
    (∀ kv ∈ groupByLocation ps slot,
      kv.2 = ps.filter (fun p => decide ((resolvedLocations p slot).head? = some kv.1))) ∧
    (∀ k, k ∉ (groupByLocation ps slot).map Prod.fst →
      ps.filter (fun p => decide ((resolvedLocations p slot).head? = some k)) = []) := by
  rw [groupByLocation_eq_fold]
  obtain ⟨h1, h2, h3⟩ := foldPushAssoc_char (fun p => (resolvedLocations p slot).head?) ps [] []
    (by simp) (by simp) (by simp)
  simp only [List.nil_append] at h2 h3
  exact ⟨h1, h2, h3⟩

theorem buildAreaMap_char (ps : List Participant) :
    (((buildAreaMap ps).map Prod.fst).Nodup) ∧
    (∀ kv ∈ buildAreaMap ps, kv.2 = ps.filter (fun p => decide (mainArea p = kv.1))) ∧
    (∀ k, k ∉ (buildAreaMap ps).map Prod.fst →
      ps.filter (fun p => decide (mainArea p = k)) = []) := by
  obtain ⟨h1, h2, h3⟩ := foldPushAssoc_char (fun p => some (mainArea p)) ps [] []
    (by simp) (by simp) (by simp)
  have he : ps.foldl (pushAssocStep (fun p => some (mainArea p))) [] = buildAreaMap ps := by
    unfold buildAreaMap
    have : pushAssocStep (fun p => some (mainArea p)) =
        (fun (m : List (Option String × List Participant)) (p : Participant) =>
          pushAssoc m (mainArea p) p) := by
      funext m p
      simp [pushAssocStep]
    rw [this]
  rw [he] at h1 h2 h3
  simp only [List.nil_append, Option.some.injEq] at h2 h3
  exact ⟨h1, h2, h3⟩

/-! ### The smallest-group scan -/

theorem findSmallestAux_all_ge (s : Nat) :
    ∀ (rest : List (List Participant)) (i b : Nat),
    (∀ g ∈ rest, s ≤ g.length) → findSmallestAux rest i b s = b := by
  intro rest
  induction rest with
  | nil => intro i b _; rfl
  | cons g r ih =>
    intro i b h
    have hg : ¬ g.length < s := by
      have := h g (List.mem_cons_self _ _)
      omega
    simp only [findSmallestAux, if_neg hg]
    exact ih (i + 1) b (fun g2 hg2 => h g2 (List.mem_cons_of_mem _ hg2))

theorem findSmallestAux_shape (q : Nat) (B : List (List Participant))
    (hB : ∀ g ∈ B, g.length = q) (hBne : B ≠ []) :
    ∀ (A : List (List Participant)) (i b : Nat),
    (∀ g ∈ A, g.length = q + 1) → findSmallestAux (A ++ B) i b (q + 1) = i + A.length := by
  intro A
  induction A with
  | nil =>
    intro i b _
    obtain ⟨c, B2, hc⟩ : ∃ c B2, B = c :: B2 := by
      cases B with
      | nil => exact absurd rfl hBne
      | cons c B2 => exact ⟨c, B2, rfl⟩
    subst hc
    have hc1 : c.length = q := hB c (List.mem_cons_self _ _)
    have hlt : c.length < q + 1 := by omega
    show findSmallestAux (c :: B2) i b (q + 1) = i + List.length []
    simp only [findSmallestAux, if_pos hlt, List.length_nil, Nat.add_zero]
    rw [hc1]
    exact findSmallestAux_all_ge q B2 (i + 1) i
      (fun g hg => le_of_eq (hB g (List.mem_cons_of_mem _ hg)).symm)
  | cons a A2 ih =>
    intro i b hA
    have ha : a.length = q + 1 := hA a (List.mem_cons_self _ _)
    have hnlt : ¬ a.length < q + 1 := by omega
    show findSmallestAux (a :: (A2 ++ B)) i b (q + 1) = i + (a :: A2).length
    simp only [findSmallestAux, if_neg hnlt]
    rw [ih (i + 1) b (fun g hg => hA g (List.mem_cons_of_mem _ hg))]
    simp only [List.length_cons]
    omega

theorem findSmallestGroup_shape (q : Nat) (A B : List (List Participant))
    (hA : ∀ g ∈ A, g.length = q + 1) (hB : ∀ g ∈ B, g.length = q) (hBne : B ≠ []) :
    findSmallestGroup (A ++ B) = A.length := by
  cases A with
  | nil =>
    obtain ⟨c, B2, hc⟩ : ∃ c B2, B = c :: B2 := by
      cases B with
      | nil => exact absurd rfl hBne
      | cons c B2 => exact ⟨c, B2, rfl⟩
    subst hc
    show findSmallestGroup (c :: B2) = List.length []
    simp only [findSmallestGroup, List.length_nil]
    rw [hB c (List.mem_cons_self _ _)]
    exact findSmallestAux_all_ge q B2 1 0
      (fun g hg => le_of_eq (hB g (List.mem_cons_of_mem _ hg)).symm)
  | cons a A2 =>
    show findSmallestGroup (a :: (A2 ++ B)) = (a :: A2).length
    simp only [findSmallestGroup, List.length_cons]
    rw [hA a (List.mem_cons_self _ _)]
    rw [findSmallestAux_shape q B hB hBne A2 1 0
      (fun g hg => hA g (List.mem_cons_of_mem _ hg))]
    omega

/-! ### `sieve` lemmas -/

theorem sieve_append_single {α : Type} (G i : Nat) (x : α) :
    ∀ (l : List α) (j : Nat),
    sieve G i j (l ++ [x]) = sieve G i j l ++ (if (j + l.length) % G = i then [x] else []) := by
  intro l
  induction l with
  | nil =>
    intro j
    simp only [List.nil_append, List.length_nil, Nat.add_zero, sieve]
  | cons y l ih =>
    intro j
    show sieve G i j (y :: (l ++ [x])) =
      sieve G i j (y :: l) ++ (if (j + (y :: l).length) % G = i then [x] else [])
    simp only [sieve, List.length_cons]
    have harith : j + (l.length + 1) = (j + 1) + l.length := by omega
    by_cases h : j % G = i
    · rw [if_pos h, if_pos h, ih (j + 1)]
      simp only [harith, List.cons_append]
    · rw [if_neg h, if_neg h, ih (j + 1)]
      simp only [harith]

theorem sieve_zero_length {α : Type} (G : Nat) (hG : 0 < G) (i : Nat) (hi : i < G) :
    ∀ (l : List α),
    (sieve G i 0 l).length = l.length / G + (if i < l.length % G then 1 else 0) := by
  intro l
  induction l using List.reverseRecOn with
  | nil => simp [sieve]
  | append_singleton l a ih =>
    rw [sieve_append_single G i a l 0]
    rw [List.length_append, ih]
    simp only [Nat.zero_add, List.length_append, List.length_singleton]
    set m := l.length with hm
    have hdm := Nat.div_add_mod m G
    have hrG : m % G < G := Nat.mod_lt _ hG
    set q := m / G with hq
    set r := m % G with hr
    by_cases hcase : r + 1 < G
    · have h1 : m + 1 = (r + 1) + q * G := by
        rw [← hdm]
        ring
      have hmod : (m + 1) % G = r + 1 := by
        rw [h1, Nat.add_mul_mod_self_right]
        exact Nat.mod_eq_of_lt hcase
      have hdiv : (m + 1) / G = q := by
        rw [h1, Nat.add_mul_div_right _ _ hG, Nat.div_eq_of_lt hcase]
        omega
      simp only [hmod, hdiv]
      by_cases hri : r = i
      · have hnir : ¬ i < r := by omega
        have hilt : i < r + 1 := by omega
        simp [hri, hnir, hilt]
      · by_cases hir : i < r
        · have hilt : i < r + 1 := by omega
          simp [hri, hir, hilt]
        · have hnlt : ¬ i < r + 1 := by omega
          simp [hri, hir, hnlt]
    · have hG1 : r + 1 = G := by omega
      have h1 : m + 1 = (q + 1) * G := by
        have h2 : (q + 1) * G = G * q + G := by ring
        omega
      have hmod : (m + 1) % G = 0 := by
        rw [h1, Nat.mul_mod_left]
      have hdiv : (m + 1) / G = q + 1 := by
        rw [h1, Nat.mul_div_cancel _ hG]
      simp only [hmod, hdiv]
      have hi0 : ¬ i < 0 := Nat.not_lt_zero i
      by_cases hri : r = i
      · have hnir : ¬ i < r := by omega
        simp [hri, hnir, hi0]
      · have hir : i < r := by omega
        simp [hir, hri, hi0]

theorem sieve_sublist {α : Type} (G i : Nat) :
    ∀ (l : List α) (j : Nat), List.Sublist (sieve G i j l) l := by
  intro l
  induction l with
  | nil => intro j; simp [sieve]
  | cons x xs ih =>
    intro j
    simp only [sieve]
    by_cases h : j % G = i
    · rw [if_pos h]
      exact List.Sublist.cons₂ x (ih (j + 1))
    · rw [if_neg h]
      exact List.Sublist.cons x (ih (j + 1))

theorem mem_of_mem_sieve {α : Type} {G i : Nat} {x : α} {l : List α} {j : Nat}
    (h : x ∈ sieve G i j l) : x ∈ l :=
  (sieve_sublist G i l j).mem h

theorem mem_sieve_at {α : Type} (G : Nat) (x : α) :
    ∀ (P : List α) (suf : List α) (j : Nat),
    x ∈ sieve G ((j + P.length) % G) j (P ++ x :: suf) := by
  intro P
  induction P with
  | nil =>
    intro suf j
    simp only [List.nil_append, List.length_nil, Nat.add_zero, sieve, if_pos rfl]
    exact List.mem_cons_self _ _
  | cons p P ih =>
    intro suf j
    simp only [List.cons_append, sieve, List.length_cons]
    have harith : j + (P.length + 1) = (j + 1) + P.length := by omega
    rw [harith]
    by_cases h : j % G = ((j + 1) + P.length) % G
    · rw [if_pos h]
      exact List.mem_cons_of_mem _ (ih suf (j + 1))
    · rw [if_neg h]
      exact ih suf (j + 1)

theorem sieve_position {α : Type} (G : Nat) (x : α) :
    ∀ (l : List α) (j i : Nat), x ∈ sieve G i j l →
    ∃ k, ∃ hk : k < l.length, l.get ⟨k, hk⟩ = x ∧ (j + k) % G = i := by
  intro l
  induction l with
  | nil => intro j i h; simp [sieve] at h
  | cons y l ih =>
    intro j i h
    simp only [sieve] at h
    by_cases hj : j % G = i
    · rw [if_pos hj] at h
      rcases List.mem_cons.mp h with he | hm
      · subst he
        exact ⟨0, by simp, rfl, by simpa using hj⟩
      · obtain ⟨k, hk, hget, hmod⟩ := ih (j + 1) i hm
        refine ⟨k + 1, by simpa using Nat.succ_lt_succ hk, ?_, ?_⟩
        · simpa using hget
        · rw [show j + (k + 1) = (j + 1) + k by omega]
          exact hmod
    · rw [if_neg hj] at h
      obtain ⟨k, hk, hget, hmod⟩ := ih (j + 1) i h
      refine ⟨k + 1, by simpa using Nat.succ_lt_succ hk, ?_, ?_⟩
      · simpa using hget
      · rw [show j + (k + 1) = (j + 1) + k by omega]
        exact hmod

theorem sieve_index_unique {α : Type} (G : Nat) (l : List α) (hnd : l.Nodup)
    (i1 i2 : Nat) (x : α) (h1 : x ∈ sieve G i1 0 l) (h2 : x ∈ sieve G i2 0 l) : i1 = i2 := by
  obtain ⟨k1, hk1, hget1, hmod1⟩ := sieve_position G x l 0 i1 h1
  obtain ⟨k2, hk2, hget2, hmod2⟩ := sieve_position G x l 0 i2 h2
  have hke : (⟨k1, hk1⟩ : Fin l.length) = ⟨k2, hk2⟩ :=
    (List.Nodup.get_inj_iff hnd).mp (by rw [hget1, hget2])
  have hk : k1 = k2 := by
    have := congrArg Fin.val hke
    simpa using this
  rw [← hmod1, ← hmod2, hk]

/-! ### The smallest-group fold is round-robin -/

theorem range_split (G r : Nat) (hr : r < G) :
    List.range G = List.range' 0 r ++ List.range' r (G - r) := by
  have h2 := List.range'_append 0 r (G - r) 1
  rw [List.range_eq_range']
  rw [show 0 + 1 * r = r by omega] at h2
  rw [show G - r + r = G by omega] at h2
  exact h2.symm

theorem assignFold_sieve (G : Nat) (hG : 0 < G) (qs : List Participant) :
    qs.foldl pushToSmallest (List.replicate G []) =
      (List.range G).map (fun i => sieve G i 0 qs) := by
  induction qs using List.reverseRecOn with
  | nil =>
    rw [List.foldl_nil]
    have h : (fun i => sieve G i 0 ([] : List Participant)) =
        (fun _ => ([] : List Participant)) := by
      funext i
      rfl
    rw [h]
    simp [List.map_const]
  | append_singleton l a ih =>
    rw [List.foldl_append, List.foldl_cons, List.foldl_nil, ih]
    have hrG : l.length % G < G := Nat.mod_lt _ hG
    have hSlen : ((List.range G).map (fun i => sieve G i 0 l)).length = G := by
      rw [List.length_map, List.length_range]
    have hsplit : (List.range G).map (fun i => sieve G i 0 l) =
        ((List.range' 0 (l.length % G)).map (fun i => sieve G i 0 l)) ++
        ((List.range' (l.length % G) (G - l.length % G)).map (fun i => sieve G i 0 l)) := by
      rw [← List.map_append, ← range_split G (l.length % G) hrG]
    have hA : ∀ g ∈ (List.range' 0 (l.length % G)).map (fun i => sieve G i 0 l),
        g.length = l.length / G + 1 := by
      intro g hg
      obtain ⟨i, hi, he⟩ := List.mem_map.mp hg
      obtain ⟨i0, hi0, he0⟩ := List.mem_range'.mp hi
      have hilt : i < l.length % G := by omega
      rw [← he, sieve_zero_length G hG i (by omega) l, if_pos hilt]
    have hB : ∀ g ∈ (List.range' (l.length % G) (G - l.length % G)).map
        (fun i => sieve G i 0 l), g.length = l.length / G := by
      intro g hg
      obtain ⟨i, hi, he⟩ := List.mem_map.mp hg
      obtain ⟨i0, hi0, he0⟩ := List.mem_range'.mp hi
      have hige : ¬ i < l.length % G := by omega
      rw [← he, sieve_zero_length G hG i (by omega) l, if_neg hige]
      omega
    have hBne : (List.range' (l.length % G) (G - l.length % G)).map
        (fun i => sieve G i 0 l) ≠ [] := by
      intro hc
      have := congrArg List.length hc
      rw [List.length_map, List.length_range'] at this
      simp only [List.length_nil] at this
      omega
    have hAlen : ((List.range' 0 (l.length % G)).map (fun i => sieve G i 0 l)).length =
        l.length % G := by
      rw [List.length_map, List.length_range']
    have hfind : findSmallestGroup ((List.range G).map (fun i => sieve G i 0 l)) =
        l.length % G := by
      rw [hsplit]
      rw [findSmallestGroup_shape (l.length / G) _ _ hA hB hBne]
      exact hAlen
    unfold pushToSmallest
    rw [hfind]
    have hgetD : ((List.range G).map (fun i => sieve G i 0 l)).getD (l.length % G) [] =
        sieve G (l.length % G) 0 l := by
      rw [List.getD_eq_getElem _ [] (by rw [hSlen]; exact hrG)]
      rw [List.getElem_map]
      congr 1
      exact List.getElem_range _ _
    rw [hgetD]
    apply List.ext_getElem
    · rw [List.length_set, hSlen, List.length_map, List.length_range]
    · intro k h1 h2
      rw [List.getElem_set]
      rw [List.getElem_map (fun i => sieve G i 0 (l ++ [a]))]
      rw [List.getElem_range]
      rw [sieve_append_single G k a l 0]
      simp only [Nat.zero_add]
      by_cases hrk : l.length % G = k
      · rw [if_pos hrk, if_pos hrk, hrk]
      · rw [if_neg hrk, if_neg hrk, List.append_nil]
        rw [List.getElem_map (fun i => sieve G i 0 l)]
        congr 1
        exact List.getElem_range _ _

/-! ### Permutation facts -/

theorem insertByRank_perm (p : Participant) :
    ∀ (l : List Participant), List.Perm (insertByRank p l) (p :: l) := by
  intro l
  induction l with
  | nil => exact List.Perm.refl _
  | cons q rest ih =>
    unfold insertByRank
    by_cases h : expRank p.experienceLevel ≤ expRank q.experienceLevel
    · rw [if_pos h]
    · rw [if_neg h]
      exact (ih.cons q).trans (List.Perm.swap p q rest)

theorem sortByExperience_perm (ps : List Participant) :
    List.Perm (sortByExperience ps) ps := by
  induction ps with
  | nil => exact List.Perm.refl _
  | cons p rest ih =>
    unfold sortByExperience
    exact (insertByRank_perm p (sortByExperience rest)).trans (ih.cons p)

theorem areaOrder_cons (kv : Option String × List Participant)
    (m : List (Option String × List Participant)) :
    areaOrder (kv :: m) = kv.2 ++ areaOrder m := by
  simp [areaOrder]

theorem areaOrder_pushAssoc_perm (k : Option String) (p : Participant) :
    ∀ (m : List (Option String × List Participant)),
    List.Perm (areaOrder (pushAssoc m k p)) (p :: areaOrder m) := by
  intro m
  induction m with
  | nil =>
    have h : areaOrder (pushAssoc [] k p) = [p] := by
      simp [pushAssoc, areaOrder]
    rw [h]
    exact List.Perm.refl _
  | cons kv m ih =>
    by_cases h : kv.1 = k
    · simp only [pushAssoc, if_pos h]
      rw [areaOrder_cons, areaOrder_cons, List.append_assoc]
      exact List.perm_middle
    · simp only [pushAssoc, if_neg h]
      rw [areaOrder_cons, areaOrder_cons]
      exact (List.Perm.append_left kv.2 ih).trans List.perm_middle

theorem areaOrder_buildAreaMap_perm (ps : List Participant) :
    List.Perm (areaOrder (buildAreaMap ps)) ps := by
  have main : ∀ (l : List Participant) (m : List (Option String × List Participant)),
      List.Perm (areaOrder (l.foldl (fun m p => pushAssoc m (mainArea p) p) m))
        (l ++ areaOrder m) := by
    intro l
    induction l with
    | nil =>
      intro m
      rw [List.foldl_nil, List.nil_append]
    | cons p l ih =>
      intro m
      rw [List.foldl_cons]
      refine (ih (pushAssoc m (mainArea p) p)).trans ?_
      refine (List.Perm.append_left l (areaOrder_pushAssoc_perm (mainArea p) p m)).trans ?_
      exact List.perm_middle
  have h := main ps []
  have hnil : areaOrder ([] : List (Option String × List Participant)) = [] := rfl
  rw [hnil, List.append_nil] at h
  exact h

theorem assignedOrder_perm (ps : List Participant) :
    List.Perm (assignedOrder ps) ps :=
  (areaOrder_buildAreaMap_perm (sortByExperience ps)).trans (sortByExperience_perm ps)

/-! ### `createOptimalGroups` characterization -/

theorem sweepRemaining_skip :
    ∀ (sorted : List Participant) (afterAreas : List (List Participant)),
    (∀ p ∈ sorted, p.id ∈ addedIdsOf afterAreas) →
    sweepRemaining sorted afterAreas = afterAreas := by
  intro sorted
  induction sorted with
  | nil => intro A _; rfl
  | cons p l ih =>
    intro A h
    have h1 : sweepRemaining (p :: l) A = sweepRemaining l A := by
      unfold sweepRemaining
      rw [List.foldl_cons, if_pos (h p (List.mem_cons_self _ _))]
    rw [h1]
    exact ih A (fun q hq => h q (List.mem_cons_of_mem _ hq))

theorem mem_addedIdsOf (gs : List (List Participant)) (g : List Participant) (p : Participant)
    (hg : g ∈ gs) (hp : p ∈ g) : p.id ∈ addedIdsOf gs := by
  unfold addedIdsOf
  rw [List.mem_flatten]
  exact ⟨g.map (fun q => q.id), List.mem_map_of_mem _ hg, List.mem_map_of_mem _ hp⟩

theorem mem_assignedOrder_mem_sieve (ps : List Participant) (p : Participant)
    (hp : p ∈ assignedOrder ps) (G : Nat) (hG : 0 < G) :
    ∃ i < G, p ∈ sieve G i 0 (assignedOrder ps) := by
  obtain ⟨pre, suf, he⟩ := List.append_of_mem hp
  refine ⟨pre.length % G, Nat.mod_lt _ hG, ?_⟩
  rw [he]
  have h := mem_sieve_at G p pre suf 0
  simpa using h

theorem createOptimalGroups_eq (ps : List Participant) :
    createOptimalGroups ps =
      ((List.range (totalGroupsOf ps.length)).map
        (fun i => sieve (totalGroupsOf ps.length) i 0 (assignedOrder ps))).filter
        (fun g => decide (0 < g.length)) := by
  by_cases hnil : ps = []
  · subst hnil
    rfl
  · have hpos : 0 < ps.length := List.length_pos.mpr hnil
    have hG : 0 < totalGroupsOf ps.length := by
      unfold totalGroupsOf
      omega
    have hsortlen : (sortByExperience ps).length = ps.length :=
      (sortByExperience_perm ps).length_eq
    have hd : distributeByArea (sortByExperience ps) =
        (List.range (totalGroupsOf ps.length)).map
          (fun i => sieve (totalGroupsOf ps.length) i 0 (assignedOrder ps)) := by
      unfold distributeByArea
      rw [hsortlen]
      exact assignFold_sieve _ hG _
    unfold createOptimalGroups
    rw [sweepRemaining_skip (sortByExperience ps) (distributeByArea (sortByExperience ps))
      (fun p hp => ?_)]
    · rw [hd]
    · have hp2 : p ∈ assignedOrder ps :=
        ((areaOrder_buildAreaMap_perm (sortByExperience ps)).symm.mem_iff).mp hp
      obtain ⟨i, hiG, hmem⟩ := mem_assignedOrder_mem_sieve ps p hp2 _ hG
      refine mem_addedIdsOf (distributeByArea (sortByExperience ps))
        (sieve (totalGroupsOf ps.length) i 0 (assignedOrder ps)) p ?_ hmem
      rw [hd]
      exact List.mem_map_of_mem _ (List.mem_range.mpr hiG)

theorem createOptimalGroups_mem_char (ps : List Participant) (g : List Participant)
    (hg : g ∈ createOptimalGroups ps) :
    ∃ i < totalGroupsOf ps.length,
      g = sieve (totalGroupsOf ps.length) i 0 (assignedOrder ps) := by
  rw [createOptimalGroups_eq] at hg
  have hg2 := List.mem_of_mem_filter hg
  obtain ⟨i, hi, he⟩ := List.mem_map.mp hg2
  exact ⟨i, List.mem_range.mp hi, he.symm⟩

theorem createOptimalGroups_subset (ps : List Participant) (g : List Participant)
    (p : Participant) (hg : g ∈ createOptimalGroups ps) (hp : p ∈ g) : p ∈ ps := by
  obtain ⟨i, _, he⟩ := createOptimalGroups_mem_char ps g hg
  rw [he] at hp
  exact (assignedOrder_perm ps).mem_iff.mp (mem_of_mem_sieve hp)

theorem createOptimalGroups_idNodup (ps : List Participant) (g : List Participant)
    (hid : (ps.map (fun p => p.id)).Nodup)
    (hg : g ∈ createOptimalGroups ps) : (g.map (fun p => p.id)).Nodup := by
  obtain ⟨i, _, he⟩ := createOptimalGroups_mem_char ps g hg
  have hqs : ((assignedOrder ps).map (fun p => p.id)).Nodup :=
    (((assignedOrder_perm ps).map (fun p => p.id)).nodup_iff).mpr hid
  rw [he]
  exact hqs.sublist ((sieve_sublist _ i (assignedOrder ps) 0).map (fun p => p.id))

theorem createOptimalGroups_length_le_four (ps : List Participant) (g : List Participant)
    (hg : g ∈ createOptimalGroups ps) : g.length ≤ 4 := by
  obtain ⟨i, hiG, he⟩ := createOptimalGroups_mem_char ps g hg
  have hG : 0 < totalGroupsOf ps.length := by omega
  have hqlen : (assignedOrder ps).length = ps.length := (assignedOrder_perm ps).length_eq
  rw [he, sieve_zero_length _ hG i hiG, hqlen]
  have hN4 : ps.length ≤ 4 * totalGroupsOf ps.length := by
    unfold totalGroupsOf
    omega
  have hdm := Nat.div_add_mod ps.length (totalGroupsOf ps.length)
  by_cases hir : i < ps.length % totalGroupsOf ps.length
  · rw [if_pos hir]
    have hq4 : ps.length / totalGroupsOf ps.length < 4 := by
      by_contra hc
      push_neg at hc
      have h1 : totalGroupsOf ps.length * 4 ≤
          totalGroupsOf ps.length * (ps.length / totalGroupsOf ps.length) :=
        Nat.mul_le_mul_left _ hc
      have h2 : totalGroupsOf ps.length * 4 = 4 * totalGroupsOf ps.length := by ring
      omega
    omega
  · rw [if_neg hir]
    have h2 : totalGroupsOf ps.length * (ps.length / totalGroupsOf ps.length) ≤
        totalGroupsOf ps.length * 4 := by
      have h3 : 4 * totalGroupsOf ps.length = totalGroupsOf ps.length * 4 := by ring
      omega
    have h4 := Nat.le_of_mul_le_mul_left h2 hG
    omega

/-! ### Persistence lemmas -/

theorem persistGroups_spec (cycle : String) :
    ∀ (raw : List RawGroup) (ids : List (Option String)) (created : List MatchGroup)
      (ok : Bool) (calls : Nat),
    persistGroups cycle ids raw = (created, ok, calls) →
    (created.map (fun mg => (mg.meetingTime, mg.meetingLocation, mg.participants)) =
      raw.take created.length) ∧
    (∀ mg ∈ created, mg.cycle = cycle ∧ mg.isFinalized = false) ∧
    (ok = true → created.length = raw.length ∧ calls = raw.length) ∧
    (ok = false → created.length < raw.length ∧ calls = created.length + 1) := by
  intro raw
  induction raw with
  | nil =>
    intro ids created ok calls h
    have h2 : created = [] ∧ true = ok ∧ 0 = calls := by
      cases ids <;> simpa [persistGroups] using h
    obtain ⟨hc, ho, hca⟩ := h2
    subst hc
    refine ⟨by simp, by simp, fun _ => by simp [← hca], fun hf => ?_⟩
    rw [← ho] at hf
    exact absurd hf (by simp)
  | cons rg rest ih =>
    intro ids created ok calls h
    cases ids with
    | nil =>
      have h2 : [] = created ∧ false = ok ∧ 1 = calls := by
        simpa [persistGroups] using h
      obtain ⟨hc, ho, hca⟩ := h2
      subst hc
      refine ⟨by simp, by simp, fun ht => ?_, fun _ => by simp [← hca]⟩
      rw [← ho] at ht
      exact absurd ht (by simp)
    | cons oid ids2 =>
      cases oid with
      | none =>
        have h2 : [] = created ∧ false = ok ∧ 1 = calls := by
          simpa [persistGroups] using h
        obtain ⟨hc, ho, hca⟩ := h2
        subst hc
        refine ⟨by simp, by simp, fun ht => ?_, fun _ => by simp [← hca]⟩
        rw [← ho] at ht
        exact absurd ht (by simp)
      | some docId =>
        rcases hrec : persistGroups cycle ids2 rest with ⟨more, ok2, calls2⟩
        have h2 : persistGroups cycle (some docId :: ids2) (rg :: rest) =
            (⟨docId, rg.2.2, rg.1, rg.2.1, false, cycle⟩ :: more, ok2, calls2 + 1) := by
          simp [persistGroups, hrec]
        rw [h2] at h
        simp only [Prod.mk.injEq] at h
        obtain ⟨hc, ho, hca⟩ := h
        obtain ⟨hmap, hcyc, htrue, hfalse⟩ := ih ids2 more ok2 calls2 hrec
        subst hc
        refine ⟨?_, ?_, ?_, ?_⟩
        · simp only [List.map_cons, List.length_cons, List.take_succ_cons, hmap]
        · intro mg hmg
          rcases List.mem_cons.mp hmg with he | hm
          · subst he
            exact ⟨rfl, rfl⟩
          · exact hcyc mg hm
        · intro ht
          rw [← ho] at ht
          obtain ⟨hl, hcl⟩ := htrue ht
          constructor
          · simp [hl]
          · rw [← hca, hcl]
            simp
        · intro hf
          rw [← ho] at hf
          obtain ⟨hl, hcl⟩ := hfalse hf
          constructor
          · simp only [List.length_cons]
            omega
          · rw [← hca, hcl]
            simp

theorem persistGroups_created_mem (cycle : String) (raw : List RawGroup)
    (ids : List (Option String)) (created : List MatchGroup) (ok : Bool) (calls : Nat)
    (h : persistGroups cycle ids raw = (created, ok, calls)) (mg : MatchGroup)
    (hmg : mg ∈ created) :
    (mg.meetingTime, mg.meetingLocation, mg.participants) ∈ raw ∧
    mg.cycle = cycle ∧ mg.isFinalized = false := by
  obtain ⟨hmap, hcyc, _, _⟩ := persistGroups_spec cycle raw ids created ok calls h
  have h1 : (mg.meetingTime, mg.meetingLocation, mg.participants) ∈
      created.map (fun mg => (mg.meetingTime, mg.meetingLocation, mg.participants)) :=
    List.mem_map_of_mem _ hmg
  rw [hmap] at h1
  exact ⟨(List.take_sublist _ _).subset h1, hcyc mg hmg⟩

theorem runMatchingAlgorithm_ok (oracle : FirestoreOracle) (ps : List Participant)
    (cycle : String) (mgs : List MatchGroup)
    (h : (runMatchingAlgorithm oracle ps cycle).result = Except.ok mgs) :
    ∃ raw, computeMatchGroups ps = some raw ∧
      ∃ calls, persistGroups cycle oracle.addDocIds raw = (mgs, true, calls) := by
  unfold runMatchingAlgorithm at h
  cases hc : computeMatchGroups ps with
  | none =>
    rw [hc] at h
    simp at h
  | some raw =>
    rw [hc] at h
    refine ⟨raw, rfl, ?_⟩
    rcases hp : persistGroups cycle oracle.addDocIds raw with ⟨created, ok, calls⟩
    simp only [hp] at h
    cases ok with
    | false => simp at h
    | true =>
      cases hb : oracle.batchCommitOk with
      | false =>
        rw [hb] at h
        simp at h
      | true =>
        rw [hb] at h
        simp only [if_true] at h
        have hcm : created = mgs := by
          simpa using h
        exact ⟨calls, by rw [hcm]⟩

theorem areaOrder_append (m1 m2 : List (Option String × List Participant)) :
    areaOrder (m1 ++ m2) = areaOrder m1 ++ areaOrder m2 := by
  unfold areaOrder
  rw [List.map_append, List.flatten_append]

theorem mod_succ_ne (s G : Nat) (hG : 2 ≤ G) : (s + 1) % G ≠ s % G := by
  have hGpos : 0 < G := by omega
  have h1 : (s + 1) % G = (s % G + 1) % G := by
    conv_lhs => rw [Nat.add_mod]
    rw [Nat.mod_eq_of_lt (show 1 < G by omega)]
  have hr : s % G < G := Nat.mod_lt _ hGpos
  by_cases hc : s % G + 1 < G
  · rw [h1, Nat.mod_eq_of_lt hc]
    omega
  · have hG1 : s % G + 1 = G := by omega
    rw [h1, hG1, Nat.mod_self]
    omega

theorem computeMatchGroups_raw_mem (ps : List Participant) (raw : List RawGroup)
    (h : computeMatchGroups ps = some raw) (rg : RawGroup) (hrg : rg ∈ raw) :
    ∃ bs kv lb, groupByAvailability ps = some bs ∧ kv ∈ bs ∧ 2 ≤ kv.2.length ∧
      lb ∈ groupByLocation kv.2 kv.1 ∧ 2 ≤ lb.2.length ∧
      rg.1 = kv.1 ∧ rg.2.1 = lb.1 ∧ rg.2.2 ∈ createOptimalGroups lb.2 ∧
      2 ≤ rg.2.2.length := by
  unfold computeMatchGroups at h
  cases hga : groupByAvailability ps with
  | none =>
    rw [hga] at h
    simp at h
  | some bs =>
    rw [hga] at h
    have hraw : raw = bs.flatMap (fun sb =>
        if sb.2.length < 2 then []
        else
          (groupByLocation sb.2 sb.1).flatMap (fun lb =>
            if lb.2.length < 2 then []
            else
              ((createOptimalGroups lb.2).filter (fun g => decide (2 ≤ g.length))).map
                (fun g => (sb.1, lb.1, g)))) := by
      simpa using h.symm
    rw [hraw] at hrg
    obtain ⟨sb, hsb, hrg2⟩ := List.mem_flatMap.mp hrg
    by_cases hlen : sb.2.length < 2
    · rw [if_pos hlen] at hrg2
      simp at hrg2
    · rw [if_neg hlen] at hrg2
      obtain ⟨lb, hlb, hrg3⟩ := List.mem_flatMap.mp hrg2
      by_cases hlen2 : lb.2.length < 2
      · rw [if_pos hlen2] at hrg3
        simp at hrg3
      · rw [if_neg hlen2] at hrg3
        obtain ⟨g, hg, he⟩ := List.mem_map.mp hrg3
        have hgmem := List.mem_of_mem_filter hg
        have hglen : 2 ≤ g.length := by
          have := List.of_mem_filter hg
          simpa using this
        refine ⟨bs, sb, lb, rfl, hsb, by omega, hlb, by omega, ?_, ?_, ?_, ?_⟩
        · rw [← he]
        · rw [← he]
        · rw [← he]
          exact hgmem
        · rw [← he]
          exact hglen

/-! ### Claim theorems -/

/-- C1: every `MatchGroup` emitted by `runMatchingAlgorithm` (on participants
with unique ids whose availability labels are canonical slots) has between 2
and 4 participants: `createOptimalGroups` distributes N bucket members over
`ceil(N/4)` groups by the smallest-group rule, so no group exceeds 4 members,
and the orchestrator discards any group with fewer than 2 members. -/
theorem c1_group_size_bound (oracle : FirestoreOracle) (ps : List Participant)
    (cycle : String) (mgs : List MatchGroup)
    (hid : (ps.map (fun p => p.id)).Nodup)
    (hcanon : ∀ p ∈ ps, ∀ a ∈ p.availability, a ∈ canonicalSlots)
    (hok : (runMatchingAlgorithm oracle ps cycle).result = Except.ok mgs) :
    ∀ mg ∈ mgs, 2 ≤ mg.participants.length ∧ mg.participants.length ≤ 4 := by
  intro mg hmg
  obtain ⟨raw, hc, calls, hp⟩ := runMatchingAlgorithm_ok oracle ps cycle mgs hok
  obtain ⟨hraw, _, _⟩ :=
    persistGroups_created_mem cycle raw oracle.addDocIds mgs true calls hp mg hmg
  obtain ⟨bs, kv, lb, _, _, _, hlb, _, _, _, hcg, hglen⟩ :=
    computeMatchGroups_raw_mem ps raw hc
      (mg.meetingTime, mg.meetingLocation, mg.participants) hraw
  exact ⟨hglen, createOptimalGroups_length_le_four lb.2 mg.participants hcg⟩

/-- C1 witness: a concrete two-participant run emits exactly one group of
size 2, and the theorem applies to it. -/
theorem c1_group_size_bound_witness :
    2 ≤ wMG.participants.length ∧ wMG.participants.length ≤ 4 :=
  c1_group_size_bound okOracle [sampleA, sampleB] "March 2025" wGroups
    (by decide) (by decide) (by rfl) wMG (by decide)

/-- C3: for a canonical slot, the final bucket of `groupByAvailability` is the
primary-pass bucket (participants whose first availability entry is the slot)
extended, exactly when the primary bucket has fewer than 3 members, by every
participant whose availability contains the slot but whose first entry is a
different slot; a slot with 3 or more primary members gets no additions. -/
theorem c3_backfill_threshold (ps : List Participant) (s : String) (bs : Buckets)
    (hid : (ps.map (fun p => p.id)).Nodup)
    (hs : s ∈ canonicalSlots)
    (h : groupByAvailability ps = some bs) :
    lookupKey bs s =
      some (if (ps.filter (fun p => decide (p.availability.head? = some s))).length < 3
        then ps.filter (fun p => decide (p.availability.head? = some s)) ++
          ps.filter (backfillEligible s)
        else ps.filter (fun p => decide (p.availability.head? = some s))) := by
  rw [groupByAvailability_lookup ps bs h s hs]
  by_cases hlen : (ps.filter (fun p => decide (p.availability.head? = some s))).length < 3
  · rw [if_pos hlen, if_pos hlen]
    rw [backfillOne_char ps s _ hid (fun q hq => List.mem_of_mem_filter hq)
      (fun q hq => by simpa using List.of_mem_filter hq)]
  · rw [if_neg hlen, if_neg hlen]

/-- C3 witness: with two primary Weekend-Dinner-free participants and one
participant listing Weekend Dinner second, the sparse Weekend Dinner bucket is
backfilled with exactly that participant. -/
theorem c3_backfill_threshold_witness :
    lookupKey wBuckets3 "Weekend Dinner" =
      some (if (wThree.filter
          (fun p => decide (p.availability.head? = some "Weekend Dinner"))).length < 3
        then wThree.filter
            (fun p => decide (p.availability.head? = some "Weekend Dinner")) ++
          wThree.filter (backfillEligible "Weekend Dinner")
        else wThree.filter
          (fun p => decide (p.availability.head? = some "Weekend Dinner"))) :=
  c3_backfill_threshold wThree "Weekend Dinner" wBuckets3 (by decide) (by decide) (by rfl)

/-- C4: every member of every produced group listed the group slot among their
availability, the group location is the first entry of the member resolved
location list for that slot, and within one group each participant id appears
at most once. -/
theorem c4_member_invariants (ps : List Participant) (raw : List RawGroup)
    (hid : (ps.map (fun p => p.id)).Nodup)
    (h : computeMatchGroups ps = some raw) :
    ∀ rg ∈ raw,
      (∀ p ∈ rg.2.2, rg.1 ∈ p.availability ∧
        (resolvedLocations p rg.1).head? = some rg.2.1) ∧
      (rg.2.2.map (fun p => p.id)).Nodup := by
  intro rg hrg
  obtain ⟨bs, kv, lb, hga, hkv, _, hlb, _, he1, he2, hcg, _⟩ :=
    computeMatchGroups_raw_mem ps raw h rg hrg
  have hkvnd := slotBucket_idNodup ps bs hid hga kv hkv
  obtain ⟨_, hlocent, _⟩ := groupByLocation_char kv.2 kv.1
  have hlb2 := hlocent lb hlb
  constructor
  · intro p hp
    have hpl : p ∈ lb.2 := createOptimalGroups_subset lb.2 rg.2.2 p hcg hp
    rw [hlb2] at hpl
    have hcond := List.of_mem_filter hpl
    simp only [decide_eq_true_eq] at hcond
    have hpk : p ∈ kv.2 := List.mem_of_mem_filter hpl
    refine ⟨?_, ?_⟩
    · rw [he1]
      exact (slotBucket_mem_availability ps bs hga kv hkv p hpk).1
    · rw [he1, he2]
      exact hcond
  · have hlbnd : (lb.2.map (fun p => p.id)).Nodup := by
      rw [hlb2]
      exact hkvnd.sublist ((List.filter_sublist _).map _)
    exact createOptimalGroups_idNodup lb.2 rg.2.2 hlbnd hcg

/-- C4 witness: the invariants hold for the concrete group produced from two
participants. -/
theorem c4_member_invariants_witness :
    (∀ p ∈ wRG.2.2, wRG.1 ∈ p.availability ∧
      (resolvedLocations p wRG.1).head? = some wRG.2.1) ∧
    (wRG.2.2.map (fun p => p.id)).Nodup :=
  c4_member_invariants [sampleA, sampleB] wRaw (by decide) (by rfl) wRG (by decide)

/-- C5: after classification, every participant with a non-empty availability
list appears in the bucket named by its first entry, and a participant with an
empty availability list appears in no bucket at all. -/
theorem c5_slot_coverage (ps : List Participant) (bs : Buckets)
    (h : groupByAvailability ps = some bs) (p : Participant) (hp : p ∈ ps) :
    (∀ a rest, p.availability = a :: rest →
      ∃ B, lookupKey bs a = some B ∧ p ∈ B) ∧
    (p.availability = [] → ∀ kv ∈ bs, p ∉ kv.2) := by
  constructor
  · intro a rest hav
    obtain ⟨pbs, hpp, hbe⟩ := groupByAvailability_eq ps bs h
    have hac : a ∈ canonicalSlots := by
      by_contra hna
      have hfail := foldlM_primStep_fails ps initialBuckets p a hp (by rw [hav]; rfl)
        (by rw [initialBuckets_keys]; exact hna)
      unfold primaryPass at hpp
      rw [hfail] at hpp
      exact Option.noConfusion hpp
    refine ⟨_, groupByAvailability_lookup ps bs h a hac, ?_⟩
    have hpB : p ∈ ps.filter (fun q => decide (q.availability.head? = some a)) :=
      List.mem_filter.mpr ⟨hp, by simp [hav]⟩
    by_cases hlen : (ps.filter (fun q => decide (q.availability.head? = some a))).length < 3
    · rw [if_pos hlen]
      obtain ⟨A, hA, _, _⟩ := backfillOne_extends ps a
        (ps.filter (fun q => decide (q.availability.head? = some a)))
      rw [hA]
      exact List.mem_append.mpr (Or.inl hpB)
    · rw [if_neg hlen]
      exact hpB
  · intro hav kv hkv hpin
    obtain ⟨A, hsh, hAprop, _⟩ := slotBucket_shape ps bs h kv hkv
    rw [hsh] at hpin
    rcases List.mem_append.mp hpin with h1 | h1
    · have hcond := List.of_mem_filter h1
      rw [hav] at hcond
      simp at hcond
    · have hmem := (hAprop p h1).1.1
      rw [hav] at hmem
      simp at hmem

/-- C5 witness: the single participant appears in the Weekday Lunch bucket. -/
theorem c5_slot_coverage_witness :
    ∃ B, lookupKey wBuckets1 "Weekday Lunch" = some B ∧ sampleA ∈ B :=
  (c5_slot_coverage [sampleA] wBuckets1 (by rfl) sampleA (by decide)).1
    "Weekday Lunch" [] (by rfl)

/-- C2: on a bucket (with distinct ids) for which `createOptimalGroups`
produces at least 2 groups, no returned group contains every member of a
primary practice area that has at least 2 members in the bucket: the
smallest-group/lowest-index rule is round-robin, so consecutive members of an
area land in distinct groups. -/
theorem c2_diversity_spread (bucket : List Participant)
    (hid : (bucket.map (fun p => p.id)).Nodup)
    (hgroups : 2 ≤ (createOptimalGroups bucket).length)
    (area : String)
    (harea : 2 ≤ (bucket.filter (fun p => decide (mainArea p = some area))).length) :
    ∀ g ∈ createOptimalGroups bucket,
      ¬ (∀ p ∈ bucket, mainArea p = some area → p ∈ g) := by
  intro g hg Hall
  have hG2 : 2 ≤ totalGroupsOf bucket.length := by
    have h1 : (createOptimalGroups bucket).length ≤ totalGroupsOf bucket.length := by
      rw [createOptimalGroups_eq]
      exact le_trans (List.length_filter_le _ _)
        (by rw [List.length_map, List.length_range])
    omega
  obtain ⟨hnd, hentries, hcompl⟩ := buildAreaMap_char (sortByExperience bucket)
  have hfperm : List.Perm
      ((sortByExperience bucket).filter (fun p => decide (mainArea p = some area)))
      (bucket.filter (fun p => decide (mainArea p = some area))) :=
    (sortByExperience_perm bucket).filter _
  have hflen : 2 ≤ ((sortByExperience bucket).filter
      (fun p => decide (mainArea p = some area))).length := by
    rw [hfperm.length_eq]
    exact harea
  have hkey : (some area) ∈ (buildAreaMap (sortByExperience bucket)).map Prod.fst := by
    by_contra hk
    rw [hcompl (some area) hk] at hflen
    simp at hflen
  obtain ⟨kv, hkv, hkv1⟩ : ∃ kv ∈ buildAreaMap (sortByExperience bucket),
      kv.1 = some area := by
    obtain ⟨kv, hkv, he⟩ := List.mem_map.mp hkey
    exact ⟨kv, hkv, he⟩
  have hkv2 : kv.2 = (sortByExperience bucket).filter
      (fun p => decide (mainArea p = some area)) := by
    have h := hentries kv hkv
    rw [hkv1] at h
    exact h
  have hlen2 : 2 ≤ kv.2.length := by
    rw [hkv2]
    exact hflen
  obtain ⟨m1, m2, hsplit⟩ := List.append_of_mem hkv
  have hq : assignedOrder bucket = areaOrder m1 ++ (kv.2 ++ areaOrder m2) := by
    unfold assignedOrder
    rw [hsplit, areaOrder_append, areaOrder_cons]
  obtain ⟨x, y, v2, hxy⟩ : ∃ x y v2, kv.2 = x :: y :: v2 := by
    have hne : kv.2 ≠ [] := by
      intro hc
      rw [hc] at hlen2
      simp at hlen2
    obtain ⟨x, t, hxt⟩ := List.exists_cons_of_ne_nil hne
    have hne2 : t ≠ [] := by
      intro hc
      rw [hxt, hc] at hlen2
      simp at hlen2
    obtain ⟨y, v2, hyv⟩ := List.exists_cons_of_ne_nil hne2
    exact ⟨x, y, v2, by rw [hxt, hyv]⟩
  have hx_pos : x ∈ sieve (totalGroupsOf bucket.length)
      ((areaOrder m1).length % totalGroupsOf bucket.length) 0 (assignedOrder bucket) := by
    rw [hq, hxy]
    have h := mem_sieve_at (totalGroupsOf bucket.length) x (areaOrder m1)
      ((y :: v2) ++ areaOrder m2) 0
    simpa using h
  have hy_pos : y ∈ sieve (totalGroupsOf bucket.length)
      (((areaOrder m1).length + 1) % totalGroupsOf bucket.length) 0
      (assignedOrder bucket) := by
    rw [hq, hxy]
    have h := mem_sieve_at (totalGroupsOf bucket.length) y (areaOrder m1 ++ [x])
      (v2 ++ areaOrder m2) 0
    simpa [List.append_assoc] using h
  have hxv : x ∈ kv.2 := by
    rw [hxy]
    exact List.mem_cons_self _ _
  have hyv : y ∈ kv.2 := by
    rw [hxy]
    exact List.mem_cons_of_mem _ (List.mem_cons_self _ _)
  rw [hkv2] at hxv hyv
  have hx_bucket : x ∈ bucket :=
    (sortByExperience_perm bucket).mem_iff.mp (List.mem_of_mem_filter hxv)
  have hy_bucket : y ∈ bucket :=
    (sortByExperience_perm bucket).mem_iff.mp (List.mem_of_mem_filter hyv)
  have hx_area : mainArea x = some area := by
    have h := List.of_mem_filter hxv
    simpa using h
  have hy_area : mainArea y = some area := by
    have h := List.of_mem_filter hyv
    simpa using h
  have hxg : x ∈ g := Hall x hx_bucket hx_area
  have hyg : y ∈ g := Hall y hy_bucket hy_area
  obtain ⟨i, hiG, hge⟩ := createOptimalGroups_mem_char bucket g hg
  rw [hge] at hxg hyg
  have hqnd : (assignedOrder bucket).Nodup :=
    ((assignedOrder_perm bucket).nodup_iff).mpr (List.Nodup.of_map _ hid)
  have h1 := sieve_index_unique (totalGroupsOf bucket.length) _ hqnd i
    ((areaOrder m1).length % totalGroupsOf bucket.length) x hxg hx_pos
  have h2 := sieve_index_unique (totalGroupsOf bucket.length) _ hqnd i
    (((areaOrder m1).length + 1) % totalGroupsOf bucket.length) y hyg hy_pos
  exact mod_succ_ne (areaOrder m1).length (totalGroupsOf bucket.length) hG2
    (by rw [← h2, h1])

/-- C2 witness: five participants forming two groups, where the corp area has
two members; no group contains both. -/
theorem c2_diversity_spread_witness :
    ¬ (∀ p ∈ wFive, mainArea p = some "corp" → p ∈ wG1) :=
  c2_diversity_spread wFive (by decide) (by decide) "corp" (by decide) wG1 (by decide)

/-- C6: when an `addDoc` call fails during group-identifier allocation, or the
status-update batch fails, the run surfaces an error to the caller; the groups
already durably created before the failure stay in the store (they are exactly
the persisted prefix of the produced groups), the failed write is not retried
(the call count is one more than the number of successful writes), and the
status batch is not committed. -/
theorem c6_persistence_failure (oracle : FirestoreOracle) (ps : List Participant)
    (cycle : String) (raw : List RawGroup) (created : List MatchGroup) (ok : Bool)
    (calls : Nat)
    (hc : computeMatchGroups ps = some raw)
    (hp : persistGroups cycle oracle.addDocIds raw = (created, ok, calls)) :
    (ok = false →
      (runMatchingAlgorithm oracle ps cycle).result =
        Except.error "Failed to run matching algorithm" ∧
      (runMatchingAlgorithm oracle ps cycle).createdGroups = created ∧
      (runMatchingAlgorithm oracle ps cycle).addDocCalls = created.length + 1 ∧
      created.map (fun mg => (mg.meetingTime, mg.meetingLocation, mg.participants)) =
        raw.take created.length ∧
      (runMatchingAlgorithm oracle ps cycle).statusBatchCommitted = false) ∧
    (ok = true → oracle.batchCommitOk = false →
      (runMatchingAlgorithm oracle ps cycle).result =
        Except.error "Failed to run matching algorithm" ∧
      (runMatchingAlgorithm oracle ps cycle).createdGroups = created ∧
      created.length = raw.length ∧
      (runMatchingAlgorithm oracle ps cycle).statusBatchCommitted = false) := by
  have hspec := persistGroups_spec cycle raw oracle.addDocIds created ok calls hp
  constructor
  · intro hf
    subst hf
    have hrm : runMatchingAlgorithm oracle ps cycle =
        { result := Except.error "Failed to run matching algorithm",
          createdGroups := created, addDocCalls := calls,
          statusBatchCommitted := false } := by
      unfold runMatchingAlgorithm
      rw [hc]
      simp only [hp]
      simp
    obtain ⟨hmap, _, _, hfspec⟩ := hspec
    obtain ⟨_, hcalls⟩ := hfspec rfl
    rw [hrm, hcalls]
    exact ⟨rfl, rfl, rfl, hmap, rfl⟩
  · intro ht hb
    subst ht
    have hrm : runMatchingAlgorithm oracle ps cycle =
        { result := Except.error "Failed to run matching algorithm",
          createdGroups := created, addDocCalls := calls,
          statusBatchCommitted := false } := by
      unfold runMatchingAlgorithm
      rw [hc]
      simp only [hp, hb]
      simp
    obtain ⟨_, _, htspec, _⟩ := hspec
    obtain ⟨hlen, _⟩ := htspec rfl
    rw [hrm]
    exact ⟨rfl, rfl, hlen, rfl⟩

/-- C6 witness: with an oracle whose first `addDoc` throws, the concrete
two-participant run errors, leaves no created groups, and made exactly one
call. -/
theorem c6_persistence_failure_witness :
    (runMatchingAlgorithm failOracle [sampleA, sampleB] "March 2025").result =
      Except.error "Failed to run matching algorithm" ∧
    (runMatchingAlgorithm failOracle [sampleA, sampleB] "March 2025").createdGroups =
      ([] : List MatchGroup) ∧
    (runMatchingAlgorithm failOracle [sampleA, sampleB] "March 2025").addDocCalls =
      ([] : List MatchGroup).length + 1 ∧
    ([] : List MatchGroup).map
        (fun mg => (mg.meetingTime, mg.meetingLocation, mg.participants)) =
      wRaw.take ([] : List MatchGroup).length ∧
    (runMatchingAlgorithm failOracle [sampleA, sampleB] "March 2025").statusBatchCommitted =
      false :=
  (c6_persistence_failure failOracle [sampleA, sampleB] "March 2025" wRaw [] false 1
    (by rfl) (by rfl)).1 rfl

/-- C7: in `groupByLocation`, a participant bucket key is exactly the first
entry of the resolved location list; a participant whose resolved list is
empty lands in no location bucket; and a participant with `locations = []` and
`useSeparateLocations = false` is excluded from every produced group
regardless of availability, without this being an error. -/
theorem c7_location_bucketing (ps : List Participant) (slot : String) :
    (∀ kv ∈ groupByLocation ps slot, ∀ p ∈ kv.2,
      (resolvedLocations p slot).head? = some kv.1) ∧
    (∀ p, resolvedLocations p slot = [] →
      ∀ kv ∈ groupByLocation ps slot, p ∉ kv.2) ∧
    (∀ p : Participant, p.locations = [] → p.useSeparateLocations = false →
      ∀ raw, computeMatchGroups ps = some raw → ∀ rg ∈ raw, p ∉ rg.2.2) := by
  obtain ⟨_, hent, _⟩ := groupByLocation_char ps slot
  refine ⟨?_, ?_, ?_⟩
  · intro kv hkv p hp
    rw [hent kv hkv] at hp
    have h := List.of_mem_filter hp
    simpa using h
  · intro p hres kv hkv hpin
    rw [hent kv hkv] at hpin
    have h := List.of_mem_filter hpin
    rw [hres] at h
    simp at h
  · intro p hloc husep raw hc rg hrg hpin
    obtain ⟨bs, kv, lb, hga, hkv, _, hlb, _, _, _, hcg, _⟩ :=
      computeMatchGroups_raw_mem ps raw hc rg hrg
    have hpl : p ∈ lb.2 := createOptimalGroups_subset lb.2 rg.2.2 p hcg hpin
    obtain ⟨_, hent2, _⟩ := groupByLocation_char kv.2 kv.1
    rw [hent2 lb hlb] at hpl
    have hcond := List.of_mem_filter hpl
    simp only [decide_eq_true_eq] at hcond
    have hres : resolvedLocations p kv.1 = [] := by
      unfold resolvedLocations
      rw [husep, hloc]
      simp
    rw [hres] at hcond
    simp at hcond

/-- C7 witness: a participant with an empty shared location list is not in the
group formed by the other two participants. -/
theorem c7_location_bucketing_witness : sampleNoLocation ∉ [sampleA, sampleB] :=
  (c7_location_bucketing [sampleA, sampleB, sampleNoLocation] "Weekday Lunch").2.2
    sampleNoLocation (by rfl) (by rfl) wRaw (by rfl)
    ("Weekday Lunch", "Tustin", [sampleA, sampleB]) (by decide)

/-- C8: the grouping computation is deterministic; it is a pure function of
the participant sequence (and oracle and cycle), so two runs on the identical
input produce identical outcomes. -/
theorem c8_determinism (ps1 ps2 : List Participant) (oracle : FirestoreOracle)
    (cycle : String)
    (hbands : ∀ p ∈ ps1, p.experienceLevel ∈ experienceLevels.map Prod.fst)
    (heq : ps1 = ps2) :
    runMatchingAlgorithm oracle ps1 cycle = runMatchingAlgorithm oracle ps2 cycle := by
  rw [heq]

/-- C8 witness: two identical concrete runs coincide. -/
theorem c8_determinism_witness :
    runMatchingAlgorithm okOracle [sampleA, sampleB] "March 2025" =
      runMatchingAlgorithm okOracle [sampleA, sampleB] "March 2025" :=
  c8_determinism [sampleA, sampleB] [sampleA, sampleB] okOracle "March 2025"
    (by decide) rfl

/-- C9 counterexample: a single supplied participant whose first availability
label is not canonical makes the run throw instead of succeeding with an
empty group list, refuting the claim as stated. -/
theorem c9_counterexample :
    [badAvailability].length < 2 ∧
    (runMatchingAlgorithm okOracle [badAvailability] "March 2025").result =
      Except.error "Failed to run matching algorithm" :=
  ⟨by decide, by rfl⟩

/-- C9 (amended): provided every participant whose availability list is
non-empty has a canonical first availability label (so classification does not
crash) and the batch commit succeeds, a run with fewer than 2 participants —
or more generally one where every slot bucket, or every location bucket of
every slot, has fewer than 2 members — succeeds and returns the empty group
sequence rather than signalling an error. -/
theorem c9_degenerate_empty (oracle : FirestoreOracle) (ps : List Participant)
    (cycle : String)
    (hcanon : ∀ p ∈ ps, ∀ a, p.availability.head? = some a → a ∈ canonicalSlots)
    (hbatch : oracle.batchCommitOk = true)
    (hdeg : ps.length < 2 ∨
      ∀ bs, groupByAvailability ps = some bs → ∀ kv ∈ bs,
        kv.2.length < 2 ∨ ∀ lb ∈ groupByLocation kv.2 kv.1, lb.2.length < 2) :
    (runMatchingAlgorithm oracle ps cycle).result = Except.ok [] := by
  obtain ⟨bs, hbs⟩ : ∃ bs, groupByAvailability ps = some bs := by
    have hsome := foldlM_primStep_total ps initialBuckets (fun p hp a ha => by
      rw [initialBuckets_keys]
      exact hcanon p hp a ha)
    obtain ⟨pbs, hpbs⟩ := Option.isSome_iff_exists.mp hsome
    refine ⟨pbs.map (fun kv =>
      (kv.1, if kv.2.length < 3 then backfillOne ps kv.1 kv.2 else kv.2)), ?_⟩
    unfold groupByAvailability primaryPass
    rw [hpbs]
    rfl
  have hdeg2 : ∀ kv ∈ bs, kv.2.length < 2 ∨
      ∀ lb ∈ groupByLocation kv.2 kv.1, lb.2.length < 2 := by
    rcases hdeg with hlt | hcond
    · intro kv hkv
      left
      obtain ⟨A, hsh, hAprop, hAsub⟩ := slotBucket_shape ps bs hbs kv hkv
      have hBlen : (ps.filter
          (fun p => decide (p.availability.head? = some kv.1))).length ≤ ps.length :=
        List.length_filter_le _ _
      have hAlen : A.length ≤ ps.length := hAsub.length_le
      have hkvlen : kv.2.length =
          (ps.filter (fun p => decide (p.availability.head? = some kv.1))).length +
            A.length := by
        rw [hsh, List.length_append]
      by_cases hsum : kv.2.length < 2
      · exact hsum
      · exfalso
        have hB1 : (ps.filter
            (fun p => decide (p.availability.head? = some kv.1))).length = 1 := by omega
        have hA1 : A.length = 1 := by omega
        have hp1 : ps.length = 1 := by omega
        obtain ⟨z, hz⟩ := List.length_eq_one.mp hp1
        obtain ⟨b, hb⟩ := List.length_eq_one.mp hB1
        obtain ⟨aa, ha⟩ := List.length_eq_one.mp hA1
        have hbmem : b ∈ ps.filter (fun p => decide (p.availability.head? = some kv.1)) := by
          rw [hb]
          exact List.mem_cons_self _ _
        have hbhead : b.availability.head? = some kv.1 := by
          simpa using List.of_mem_filter hbmem
        have hbz : b = z := by
          have hm := List.mem_of_mem_filter hbmem
          rw [hz] at hm
          simpa using hm
        have haA : aa ∈ A := by
          rw [ha]
          exact List.mem_cons_self _ _
        have hahead := (hAprop aa haA).1.2
        have haz : aa = z := by
          have hm := (hAprop aa haA).2
          rw [hz] at hm
          simpa using hm
        rw [hbz] at hbhead
        rw [haz] at hahead
        exact hahead hbhead
    · exact fun kv hkv => hcond bs hbs kv hkv
  have hc : computeMatchGroups ps = some [] := by
    unfold computeMatchGroups
    rw [hbs]
    simp only [Option.map_some']
    have hflat : bs.flatMap (fun sb =>
        if sb.2.length < 2 then []
        else
          (groupByLocation sb.2 sb.1).flatMap (fun lb =>
            if lb.2.length < 2 then []
            else
              ((createOptimalGroups lb.2).filter (fun g => decide (2 ≤ g.length))).map
                (fun g => (sb.1, lb.1, g)))) = [] := by
      rw [List.flatMap_eq_nil_iff]
      intro kv hkv
      by_cases hl : kv.2.length < 2
      · rw [if_pos hl]
      · rw [if_neg hl]
        rcases hdeg2 kv hkv with hl2 | hloc
        · exact absurd hl2 hl
        · rw [List.flatMap_eq_nil_iff]
          intro lb hlb
          rw [if_pos (hloc lb hlb)]
    rw [hflat]
  unfold runMatchingAlgorithm
  rw [hc]
  simp [persistGroups, hbatch]

/-- C9 witness (amended claim): one well-formed participant yields a
successful empty run. -/
theorem c9_degenerate_empty_witness :
    (runMatchingAlgorithm okOracle [sampleA] "March 2025").result = Except.ok [] :=
  c9_degenerate_empty okOracle [sampleA] "March 2025" (by decide) rfl
    (Or.inl (by decide))

/-- C10: under the precondition that every non-empty `availability[0]` is one
of the four canonical slot labels, the unguarded bucket lookup of the primary
pass is total and classification succeeds; and if some participant has any
other string as first availability entry, the lookup dereferences `undefined`,
classification crashes, and the whole run fails instead of skipping that
participant. -/
theorem c10_unguarded_lookup :
    (∀ ps : List Participant,
      (∀ p ∈ ps, ∀ a, p.availability.head? = some a → a ∈ canonicalSlots) →
      (groupByAvailability ps).isSome) ∧
    (∀ (ps : List Participant) (p : Participant), p ∈ ps →
      ∀ a, p.availability.head? = some a → a ∉ canonicalSlots →
      groupByAvailability ps = none ∧
      ∀ (oracle : FirestoreOracle) (cycle : String),
        (runMatchingAlgorithm oracle ps cycle).result =
          Except.error "Failed to run matching algorithm") := by
  constructor
  · intro ps hc
    have hsome := foldlM_primStep_total ps initialBuckets (fun p hp a ha => by
      rw [initialBuckets_keys]
      exact hc p hp a ha)
    obtain ⟨pbs, hpbs⟩ := Option.isSome_iff_exists.mp hsome
    unfold groupByAvailability primaryPass
    rw [hpbs]
    rfl
  · intro ps p hp a ha hna
    have hpf : primaryPass ps = none := by
      unfold primaryPass
      exact foldlM_primStep_fails ps initialBuckets p a hp ha
        (by rw [initialBuckets_keys]; exact hna)
    have hgba : groupByAvailability ps = none := by
      unfold groupByAvailability
      rw [hpf]
      rfl
    refine ⟨hgba, fun oracle cycle => ?_⟩
    have hcm : computeMatchGroups ps = none := by
      unfold computeMatchGroups
      rw [hgba]
      rfl
    unfold runMatchingAlgorithm
    rw [hcm]

/-- C10 witness: classification succeeds on a canonical participant and
crashes the run on one whose first availability label is "Someday". -/
theorem c10_unguarded_lookup_witness :
    (groupByAvailability [sampleA]).isSome ∧
    groupByAvailability [badAvailability] = none ∧
    (runMatchingAlgorithm okOracle [badAvailability] "c").result =
      Except.error "Failed to run matching algorithm" :=
  ⟨c10_unguarded_lookup.1 [sampleA] (by decide),
   (c10_unguarded_lookup.2 [badAvailability] badAvailability (by decide) "Someday"
     (by rfl) (by decide)).1,
   (c10_unguarded_lookup.2 [badAvailability] badAvailability (by decide) "Someday"
     (by rfl) (by decide)).2 okOracle "c"⟩

end NetworkingLunches
